import Mathlib

/-!
Verification of the supazod flattening / cross-reference-rewriting / naming
subsystem.

The development shallowly embeds the relevant source modules:
  * `src/lib/naming-config.ts`  (formatName, toSchemaVariableName, toCamelCase)
  * `src/lib/transform-types.ts` (transformTypes and its node processors,
    formatOutput, replaceTypeReferences, replaceTableOperationReferences,
    getAllSchemas, isTypeReferenced)
  * `src/supabase-to-zod.ts`    (the empty-tuple pre-transform in collectTypes
    and the schema-selection logic of generateContent)
  * the revision of `supabase-to-zod.ts` carrying buildSchemaNameOverrides.

Strings are Lean `String`s; the JavaScript string operations used by the code
(regex-free `includes`, global literal replacement, `split`, `join`,
character-class regexes over `[A-Za-z0-9_]`, and ASCII case mapping) are
modelled by executable functions over `List Char`.  Case mapping uses the
ASCII mapping (`Char.toLower` / `Char.toUpper`), which agrees with
JavaScript's `toLowerCase` / `toUpperCase` on the ASCII range; the character
classes `[A-Za-z0-9]` and `\w` are exactly the ASCII classes the source's
regexes use.

The parsed TypeScript syntax tree is embedded as an inductive type `Ty` for
type nodes plus `Decl` for top-level declarations; node text (`getText`) is
modelled by a canonical rendering function.
-/

/-! ### ASCII character classes and case mapping -/

/-- `[A-Z]`, by code point, as in the source's regexes. -/
def isUpperCh (c : Char) : Bool := 65 ≤ c.toNat && c.toNat ≤ 90

/-- `[a-z]`, by code point. -/
def isLowerCh (c : Char) : Bool := 97 ≤ c.toNat && c.toNat ≤ 122

/-- `[0-9]`, by code point. -/
def isDigitCh (c : Char) : Bool := 48 ≤ c.toNat && c.toNat ≤ 57

/-- `[A-Za-z0-9]`: the alphanumeric class used by
`split(/[^A-Za-z0-9]+/)`, `/[^A-Za-z0-9]/.test` and `replace(/[^A-Za-z0-9]+/g)`. -/
def isAlnumCh (c : Char) : Bool := isUpperCh c || isLowerCh c || isDigitCh c

/-- `\w` = `[A-Za-z0-9_]`, the word class of the table-operation regex. -/
def isWordCh (c : Char) : Bool := isAlnumCh c || c = '_'

/-! ### List-of-characters string operations

These model the JavaScript string primitives the source uses.  All are
structurally recursive so that concrete instances reduce in the kernel. -/

/-- `haystack.includes(needle)` for plain (regex-escaped) needles. -/
def containsSub (pat : List Char) : List Char → Bool
  | [] => pat.isEmpty
  | c :: rest => pat.isPrefixOf (c :: rest) || containsSub pat rest

/-- Global (leftmost, non-overlapping) literal replacement, with explicit
fuel; `replaceAllL` instantiates the fuel with the input length, which always
suffices. Models `String.prototype.replace` with a `g`-flagged escaped-literal
regex and a plain replacement string. -/
def replaceAllAux (pat rep : List Char) : Nat → List Char → List Char
  | _, [] => []
  | 0, s => s
  | fuel + 1, c :: rest =>
    if pat ≠ [] && pat.isPrefixOf (c :: rest) then
      rep ++ replaceAllAux pat rep fuel (List.drop (pat.length - 1) rest)
    else
      c :: replaceAllAux pat rep fuel rest

def replaceAllL (s pat rep : List Char) : List Char :=
  replaceAllAux pat rep s.length s

def sContains (s pat : String) : Bool := containsSub pat.data s.data

def sReplaceAll (s pat rep : String) : String := ⟨replaceAllL s.data pat.data rep.data⟩

/-- `str.endsWith(suffix)`. -/
def sEndsWith (s pat : String) : Bool := List.isSuffixOf pat.data s.data

/-- `str.split(sep)` for a single-character separator, keeping empty pieces,
exactly as in JavaScript (`"".split(c) = [""]`). -/
def splitOnCharL (sep : Char) : List Char → List (List Char)
  | [] => [[]]
  | c :: rest =>
    if c = sep then [] :: splitOnCharL sep rest
    else
      match splitOnCharL sep rest with
      | [] => [[c]]
      | g :: gs => (c :: g) :: gs

/-- `pieces.join(sep)` for a list-of-characters separator. -/
def joinWithL (sep : List Char) : List (List Char) → List Char
  | [] => []
  | [x] => x
  | x :: y :: rest => x ++ sep ++ joinWithL sep (y :: rest)

/-! ### Alphanumeric runs

`name.split(/[^A-Za-z0-9]+/).map(p => p.trim()).filter(Boolean)` yields
exactly the maximal runs of `[A-Za-z0-9]` characters (the split pieces are
alphanumeric, so `trim` is the identity on them, and `filter(Boolean)` drops
the empty pieces produced at separators and at the ends). -/
def alnumRuns : List Char → List (List Char)
  | [] => []
  | c :: rest =>
    let rs := alnumRuns rest
    if isAlnumCh c then
      match rest with
      | [] => [[c]]
      | d :: _ =>
        if isAlnumCh d then
          match rs with
          | r :: rs2 => (c :: r) :: rs2
          | [] => [[c]]
        else [c] :: rs
    else rs

/-- `part.charAt(0).toUpperCase() + part.slice(1)` (rest kept as-is). -/
def capFirstOnly : List Char → List Char
  | [] => []
  | c :: rest => c.toUpper :: rest

/-- `s.charAt(0).toLowerCase() + s.slice(1)`. -/
def lowerFirst : List Char → List Char
  | [] => []
  | c :: rest => c.toLower :: rest

/-- `part.charAt(0).toUpperCase() + part.slice(1).toLowerCase()`. -/
def capitalizePart (w : List Char) : List Char :=
  match w with
  | [] => []
  | c :: rest => c.toUpper :: rest.map Char.toLower

/-! ### The naming-config module (`src/lib/naming-config.ts`) -/

structure NamingConfig where
  tableOperationPattern : String
  tableSchemaPattern : String
  enumPattern : String
  enumSchemaPattern : String
  compositeTypePattern : String
  compositeTypeSchemaPattern : String
  functionArgsPattern : String
  functionArgsSchemaPattern : String
  functionReturnsPattern : String
  functionReturnsSchemaPattern : String
  capitalizeSchema : Bool
  capitalizeNames : Bool
  separator : String
  deriving Repr, DecidableEq

def defaultNamingConfig : NamingConfig where
  tableOperationPattern := "\x7bschema\x7d\x7btable\x7d\x7boperation\x7d"
  tableSchemaPattern := "\x7bschema\x7d\x7btable\x7d\x7boperation\x7d"
  enumPattern := "\x7bschema\x7d\x7bname\x7d"
  enumSchemaPattern := "\x7bschema\x7d\x7bname\x7d"
  compositeTypePattern := "\x7bschema\x7d\x7bname\x7d"
  compositeTypeSchemaPattern := "\x7bschema\x7d\x7bname\x7d"
  functionArgsPattern := "\x7bschema\x7d\x7bfunction\x7dArgs"
  functionArgsSchemaPattern := "\x7bschema\x7d\x7bfunction\x7dArgs"
  functionReturnsPattern := "\x7bschema\x7d\x7bfunction\x7dReturns"
  functionReturnsSchemaPattern := "\x7bschema\x7d\x7bfunction\x7dReturns"
  capitalizeSchema := true
  capitalizeNames := true
  separator := ""

/-- `toCamelCase` of `naming-config.ts` (lines 242-250): split on `'_'`
(when present), capitalize the first character of each piece and lowercase
the rest, and join.  When no underscore is present the single-piece branch
computes the same thing, so both branches are one formula. -/
def toCamelCaseNC (s : String) : String :=
  ⟨((splitOnCharL '_' s.data).map capitalizePart).flatten⟩

/-- `formatName` (lines 167-192): for each `(key, value)` placeholder entry in
order, optionally camel-case the value per the capitalization flags, and
globally replace the literal `{key}` in the accumulated pattern. -/
def formatName (pattern : String) (placeholders : List (String × String))
    (config : NamingConfig) : String :=
  placeholders.foldl
    (fun result kv =>
      let formattedValue :=
        if kv.1 = "schema" then
          if config.capitalizeSchema then toCamelCaseNC kv.2 else kv.2
        else
          if config.capitalizeNames then toCamelCaseNC kv.2 else kv.2
      sReplaceAll result ("\x7b" ++ kv.1 ++ "\x7d") formattedValue)
    pattern

/-! The `preserveSeparators` pipeline of `toSchemaVariableName`
(lines 225-230), one regex step per function. -/

/-- `replace(/([a-z0-9])([A-Z])/g, '$1_$2')`: insert an underscore between a
lower-or-digit character and an upper character.  (The regex consumes two
characters per match, but since the two classes are disjoint consecutive
matches cannot overlap, so the pairwise scan is equivalent.) -/
def insertU : List Char → List Char
  | [] => []
  | [c] => [c]
  | c1 :: c2 :: rest =>
    if (isLowerCh c1 || isDigitCh c1) && isUpperCh c2 then
      c1 :: '_' :: insertU (c2 :: rest)
    else c1 :: insertU (c2 :: rest)

/-- `replace(/[^A-Za-z0-9]+/g, '_')`: each maximal run of non-alphanumeric
characters becomes a single underscore (emitted at the end of the run). -/
def runsToU : List Char → List Char
  | [] => []
  | c :: rest =>
    if isAlnumCh c then c :: runsToU rest
    else
      match rest with
      | [] => ['_']
      | d :: _ => if isAlnumCh d then '_' :: runsToU rest else runsToU rest

/-- `replace(/_{2,}/g, '_')`: collapse runs of underscores. -/
def collapseU : List Char → List Char
  | [] => []
  | [c] => [c]
  | c :: d :: rest =>
    if c = '_' && d = '_' then collapseU (d :: rest) else c :: collapseU (d :: rest)

/-- `replace(/^_+|_+$/g, '')`: strip leading and trailing underscores. -/
def trimU (s : List Char) : List Char :=
  ((s.dropWhile (· = '_')).reverse.dropWhile (· = '_')).reverse

/-- The whole normalization pipeline of the `preserveSeparators` branch. -/
def normalizeU (s : List Char) : List Char :=
  (trimU (collapseU (runsToU (insertU s)))).map Char.toLower

/-- `toSchemaVariableName` (`naming-config.ts` lines 198-237). -/
def toSchemaVariableName (name : String) (preserveSeparators : Bool) : String :=
  if !preserveSeparators then
    let parts := alnumRuns name.data
    if parts.isEmpty then
      if sEndsWith name "Schema" then name else name ++ "Schema"
    else
      let pascalCase := (parts.map capFirstOnly).flatten
      if pascalCase.isEmpty then
        if sEndsWith name "Schema" then name else name ++ "Schema"
      else
        let camelCase := lowerFirst pascalCase
        if List.isSuffixOf "Schema".data camelCase then ⟨camelCase⟩
        else ⟨camelCase⟩ ++ "Schema"
  else
    let normalized := normalizeU name.data
    if normalized.isEmpty then "schema"
    else if List.isSuffixOf "schema".data normalized then ⟨normalized⟩
    else ⟨normalized⟩ ++ "_schema"

/-- `capitalizeWords` of `transform-types.ts` (lines 772-777): same formula as
`toCamelCase` of `naming-config.ts`. -/
def capitalizeWords (s : String) : String :=
  ⟨((splitOnCharL '_' s.data).map capitalizePart).flatten⟩


/-! ## Theorems -/

/-! ### Character-level lemmas -/

theorem char_toNat_lt (c : Char) : c.toNat < 1114112 := by
  have h := c.valid
  rcases h with h | ⟨_, h2⟩
  · have : c.val.toNat < 55296 := h
    simp only [Char.toNat]; omega
  · have : c.val.toNat < 1114112 := h2
    simp only [Char.toNat]; omega

theorem toNat_ofNat_valid {n : Nat} (h : n.isValidChar) : (Char.ofNat n).toNat = n := by
  simp [Char.ofNat, dif_pos h, Char.ofNatAux, Char.toNat, UInt32.toNat]

theorem char_ext_toNat {a b : Char} (h : a.toNat = b.toNat) : a = b := by
  apply Char.ext
  apply UInt32.ext
  exact h

theorem toNat_toLower (c : Char) :
    c.toLower.toNat = if 65 ≤ c.toNat ∧ c.toNat ≤ 90 then c.toNat + 32 else c.toNat := by
  simp only [Char.toLower]
  split
  · next h => exact toNat_ofNat_valid (Or.inl (by omega))
  · next h => rfl

theorem toNat_toUpper (c : Char) :
    c.toUpper.toNat = if 97 ≤ c.toNat ∧ c.toNat ≤ 122 then c.toNat - 32 else c.toNat := by
  simp only [Char.toUpper]
  split
  · next h =>
    have hlt := char_toNat_lt c
    exact toNat_ofNat_valid (Or.inl (by omega))
  · next h => rfl

theorem toLower_toUpper_toLower (c : Char) : c.toLower.toUpper.toLower = c.toLower := by
  apply char_ext_toNat
  simp only [toNat_toLower, toNat_toUpper]
  split_ifs <;> omega

theorem isAlnumCh_toUpper (c : Char) : isAlnumCh c.toUpper = isAlnumCh c := by
  apply Bool.eq_iff_iff.mpr
  simp only [isAlnumCh, isUpperCh, isLowerCh, isDigitCh, toNat_toUpper, Bool.or_eq_true,
    Bool.and_eq_true, decide_eq_true_eq]
  split_ifs <;> omega

theorem isAlnumCh_toLower (c : Char) : isAlnumCh c.toLower = isAlnumCh c := by
  apply Bool.eq_iff_iff.mpr
  simp only [isAlnumCh, isUpperCh, isLowerCh, isDigitCh, toNat_toLower, Bool.or_eq_true,
    Bool.and_eq_true, decide_eq_true_eq]
  split_ifs <;> omega

theorem isUpperCh_toLower (c : Char) : isUpperCh c.toLower = false := by
  simp only [isUpperCh, toNat_toLower, Bool.and_eq_false_iff, decide_eq_false_iff_not]
  split_ifs <;> omega

theorem toLower_of_not_upper {c : Char} (h : isUpperCh c = false) : c.toLower = c := by
  apply char_ext_toNat
  rw [toNat_toLower, if_neg]
  simp only [isUpperCh, Bool.and_eq_false_iff] at h
  rcases h with h | h <;> simp at h <;> omega

/-! ### String-splitting lemmas -/

theorem splitOnCharL_ne_nil (sep : Char) (s : List Char) : splitOnCharL sep s ≠ [] := by
  cases s with
  | nil => simp [splitOnCharL]
  | cons c rest =>
    simp only [splitOnCharL]
    split
    · simp
    · split
      · simp
      · simp

/-- Splitting and rejoining on the same separator is the identity. -/
theorem joinWithL_splitOnCharL (sep : Char) (s : List Char) :
    joinWithL [sep] (splitOnCharL sep s) = s := by
  induction s with
  | nil => simp [splitOnCharL, joinWithL]
  | cons c rest ih =>
    simp only [splitOnCharL]
    split
    · next h =>
      subst h
      cases hr : splitOnCharL c rest with
      | nil => exact absurd hr (splitOnCharL_ne_nil c rest)
      | cons g gs =>
        rw [hr] at ih
        simp only [joinWithL]
        cases gs with
        | nil => simp [joinWithL] at ih ⊢; exact ih
        | cons g2 gs2 => simp [joinWithL] at ih ⊢; exact ih
    · next h =>
      cases hr : splitOnCharL sep rest with
      | nil => exact absurd hr (splitOnCharL_ne_nil sep rest)
      | cons g gs =>
        rw [hr] at ih
        cases gs with
        | nil => simp [joinWithL] at ih ⊢; exact ih
        | cons g2 gs2 =>
          simp only [joinWithL] at ih ⊢
          simp [← ih]

/-! ### The embedded TypeScript syntax tree

`Ty` embeds the type-node shapes the traversal distinguishes
(`isTypeLiteralNode`, `isTupleTypeNode`, `isUnionTypeNode`,
`isLiteralTypeNode`, the `boolean` keyword, `isTypeReferenceNode`, plus the
array/unknown nodes produced by the empty-tuple pre-transform); any other
node is `otherType` carrying its source text verbatim.  `Decl` embeds the
top-level declarations (`type X = …`, `interface X { … }`, anything else).
Property names are plain strings (`getNodeName`, a module whose source is not
in the tree, is modelled from the spec as returning the node's name text). -/

inductive Ty where
  | typeLiteral (members : List (String × Ty))
  | tupleType (elems : List Ty)
  | unionType (elems : List Ty)
  | literalType (text : String)
  | typeRefNode (name : String) (args : List Ty)
  | arrayType (elem : Ty)
  | unknownKeyword
  | boolKeyword
  | otherType (text : String)

inductive Decl where
  | typeAlias (name : String) (ty : Ty)
  | interfaceDecl (name : String) (members : List (String × Ty))
  | otherDecl

abbrev SourceFile := List Decl

/-! Canonical rendering of a type node, modelling `node.getText(sourceFile)`
(the text copied verbatim from the source). -/
mutual
def renderTy : Ty → String
  | .typeLiteral ms => "\x7b " ++ renderMembers ms ++ " \x7d"
  | .tupleType es => "[" ++ renderTyList ", " es ++ "]"
  | .unionType es => renderTyList " | " es
  | .literalType t => t
  | .typeRefNode n args =>
    if args.isEmpty then n else n ++ "<" ++ renderTyList ", " args ++ ">"
  | .arrayType e => renderTy e ++ "[]"
  | .unknownKeyword => "unknown"
  | .boolKeyword => "boolean"
  | .otherType t => t

def renderMembers : List (String × Ty) → String
  | [] => ""
  | [(n, t)] => n ++ ": " ++ renderTy t
  | (n, t) :: rest => n ++ ": " ++ renderTy t ++ "; " ++ renderMembers rest

def renderTyList (sep : String) : List Ty → String
  | [] => ""
  | [t] => renderTy t
  | t :: rest => renderTy t ++ sep ++ renderTyList sep rest
end

/-- Rendering of a top-level declaration (`node.getText`), used for the
`Json` type-alias passthrough. -/
def renderDecl : Decl → String
  | .typeAlias n ty => "type " ++ n ++ " = " ++ renderTy ty
  | .interfaceDecl n ms => "interface " ++ n ++ " " ++ renderTy (.typeLiteral ms)
  | .otherDecl => ""

/-! The rendered type text of every property signature occurring anywhere
inside a type node, in visit order.  This models the property-signature scan
of `isTypeReferenced` (lines 370-396), which walks the whole tree and reads
`node.type.getText(sourceFile)` of each property signature. -/
mutual
def propTextsTy : Ty → List String
  | .typeLiteral ms => propTextsMembers ms
  | .tupleType es => propTextsList es
  | .unionType es => propTextsList es
  | .literalType _ => []
  | .typeRefNode _ args => propTextsList args
  | .arrayType e => propTextsTy e
  | .unknownKeyword => []
  | .boolKeyword => []
  | .otherType _ => []

def propTextsMembers : List (String × Ty) → List String
  | [] => []
  | (_, t) :: rest => renderTy t :: (propTextsTy t ++ propTextsMembers rest)

def propTextsList : List Ty → List String
  | [] => []
  | t :: rest => propTextsTy t ++ propTextsList rest
end

def propTextsDecl : Decl → List String
  | .typeAlias _ ty => propTextsTy ty
  | .interfaceDecl _ ms => propTextsMembers ms
  | .otherDecl => []

def propTextsFile (sf : SourceFile) : List String :=
  (sf.map propTextsDecl).flatten

/-! ### Node-shape tests -/

def isTypeLiteralB : Ty → Bool
  | .typeLiteral _ => true
  | _ => false

def isTupleB : Ty → Bool
  | .tupleType _ => true
  | _ => false

/-- `ts.isUnionTypeNode(node) || ts.isLiteralTypeNode(node)`: the guard used
for enum bodies. -/
def isUnionOrLitB : Ty → Bool
  | .unionType _ => true
  | .literalType _ => true
  | _ => false

def isEmptyTupleB : Ty → Bool
  | .tupleType [] => true
  | _ => false

/-! ### The collector (`TypeCollector` of `transform-types.ts`)

The source mutates one collector through the traversal; the model has every
processor return the pushes it performs, concatenated in visit order.  The
`schemaNameCollector` callback is modelled by the `mappings` field (the
collected `SchemaNameMapping`s, in push order). -/

structure SchemaNameMapping where
  typeName : String
  schemaName : String
  deriving Repr, DecidableEq

structure EnumNameEntry where
  name : String
  formattedName : String
  schema : String
  deriving Repr, DecidableEq

structure CompositeNameEntry where
  name : String
  formattedName : String
  deriving Repr, DecidableEq

structure TypeCollector where
  typeStrings : List String
  enumNames : List EnumNameEntry
  compositeTypeNames : List CompositeNameEntry
  mappings : List SchemaNameMapping
  deriving Repr, DecidableEq

def TypeCollector.emptyC : TypeCollector := ⟨[], [], [], []⟩

def TypeCollector.appendC (a b : TypeCollector) : TypeCollector :=
  ⟨a.typeStrings ++ b.typeStrings, a.enumNames ++ b.enumNames,
   a.compositeTypeNames ++ b.compositeTypeNames, a.mappings ++ b.mappings⟩

/-- Concatenate the collectors produced for each list element, in order. -/
def collectOver (f : α → TypeCollector) : List α → TypeCollector
  | [] => TypeCollector.emptyC
  | x :: rest => (f x).appendC (collectOver f rest)

/-- `collectSchemaName` (lines 751-770): format the schema-variable pattern,
decide `preserveSeparators` by testing the formatted name for any
non-`[A-Za-z0-9]` character, and derive the validator-variable name. -/
def collectSchemaName (cfg : NamingConfig) (pattern : String)
    (placeholders : List (String × String)) (typeName : String) : SchemaNameMapping :=
  let formatted := formatName pattern placeholders cfg
  let preserveSeparators := formatted.data.any (fun c => !(isAlnumCh c))
  { typeName := typeName,
    schemaName := toSchemaVariableName formatted preserveSeparators }

/-! ### The node processors of `transform-types.ts` -/

/-- `processTableOperations` (lines 439-485): for each operation entry of the
table's type literal with a non-empty name, if the operation's declared type
is a type literal or a tuple literal, emit one declaration named by the
table-operation pattern and record one schema-name mapping.  (The member's
name child, also visited by `forEachChild`, is an identifier and fails the
type-literal/tuple guard, so only the type child produces a push.) -/
def processTableOperations (cfg : NamingConfig) (schema tableName : String)
    (tableTy : Ty) : TypeCollector :=
  match tableTy with
  | .typeLiteral ops =>
    collectOver
      (fun op =>
        if op.1 = "" then TypeCollector.emptyC
        else if isTypeLiteralB op.2 || isTupleB op.2 then
          let formattedName := formatName cfg.tableOperationPattern
            [("schema", schema), ("table", tableName), ("operation", op.1)] cfg
          { typeStrings := ["export type " ++ formattedName ++ " = " ++ renderTy op.2],
            enumNames := [], compositeTypeNames := [],
            mappings := [collectSchemaName cfg cfg.tableSchemaPattern
              [("schema", schema), ("table", tableName), ("operation", op.1)]
              formattedName] }
        else TypeCollector.emptyC)
      ops
  | _ => TypeCollector.emptyC

/-- `processTablesOrViews` (lines 424-437). -/
def processTablesOrViews (cfg : NamingConfig) (schema : String) (memberTy : Ty) :
    TypeCollector :=
  match memberTy with
  | .typeLiteral tables =>
    collectOver (fun tbl => processTableOperations cfg schema tbl.1 tbl.2) tables
  | _ => TypeCollector.emptyC

/-- `processEnums` (lines 487-530): one declaration per enum entry whose
declared type is a union or a single literal type, plus an `enumNames`
record tagged with the target schema. -/
def processEnums (cfg : NamingConfig) (schema : String) (memberTy : Ty) :
    TypeCollector :=
  match memberTy with
  | .typeLiteral enums =>
    collectOver
      (fun e =>
        if isUnionOrLitB e.2 then
          let fullFormattedName := formatName cfg.enumPattern
            [("schema", schema), ("name", e.1)] cfg
          { typeStrings := ["export type " ++ fullFormattedName ++ " = " ++ renderTy e.2],
            enumNames := [⟨e.1, fullFormattedName, schema⟩],
            compositeTypeNames := [],
            mappings := [collectSchemaName cfg cfg.enumSchemaPattern
              [("schema", schema), ("name", e.1)] fullFormattedName] }
        else TypeCollector.emptyC)
      enums
  | _ => TypeCollector.emptyC

/-- `processCompositeTypes` (lines 532-573). -/
def processCompositeTypes (cfg : NamingConfig) (schema : String) (memberTy : Ty) :
    TypeCollector :=
  match memberTy with
  | .typeLiteral entries =>
    collectOver
      (fun e =>
        if isTypeLiteralB e.2 then
          let formattedName := formatName cfg.compositeTypePattern
            [("schema", schema), ("name", e.1)] cfg
          { typeStrings := ["export type " ++ formattedName ++ " = " ++ renderTy e.2],
            enumNames := [],
            compositeTypeNames := [⟨e.1, formattedName⟩],
            mappings := [collectSchemaName cfg cfg.compositeTypeSchemaPattern
              [("schema", schema), ("name", e.1)] formattedName] }
        else TypeCollector.emptyC)
      entries
  | _ => TypeCollector.emptyC

/-- The body-text normalizations of `processFunctionDefinition`
(lines 619-631): a boolean-keyword body becomes `boolean`; a body whose text
contains `Record<PropertyKey, never>` becomes the empty-object literal;
otherwise the text is kept verbatim. -/
def fnMemberText (t : Ty) : String :=
  match t with
  | .boolKeyword => "boolean"
  | _ =>
    let txt := renderTy t
    if sContains txt "Record<PropertyKey, never>" then "\x7b\x7d" else txt

/-- `processFunctionDefinition` (lines 589-657).  For each `Args`/`Returns`
member the unguarded `memberNode.forEachChild` callback fires once for the
member's *name* child (an identifier, whose `getText` is the member name
itself, subject to none of the conversions) and once for the type child, so
each member produces TWO pushed declarations (under the same formatted name)
and two identical schema-name mappings, in that order. -/
def processFunctionDefinition (cfg : NamingConfig) (schema funcName : String)
    (funcTy : Ty) : TypeCollector :=
  match funcTy with
  | .typeLiteral members =>
    collectOver
      (fun m =>
        if m.1 = "Args" ∨ m.1 = "Returns" then
          let pattern := if m.1 = "Args" then cfg.functionArgsPattern
                         else cfg.functionReturnsPattern
          let schemaPattern := if m.1 = "Args" then cfg.functionArgsSchemaPattern
                               else cfg.functionReturnsSchemaPattern
          let formattedName := formatName pattern
            [("schema", schema), ("function", funcName)] cfg
          let mapping := collectSchemaName cfg schemaPattern
            [("schema", schema), ("function", funcName)] formattedName
          { typeStrings :=
              ["export type " ++ formattedName ++ " = " ++ m.1 ++ ";",
               "export type " ++ formattedName ++ " = " ++ fnMemberText m.2 ++ ";"],
            enumNames := [], compositeTypeNames := [],
            mappings := [mapping, mapping] }
        else TypeCollector.emptyC)
      members
  | _ => TypeCollector.emptyC

/-- `processFunctions` (lines 575-587). -/
def processFunctions (cfg : NamingConfig) (schema : String) (memberTy : Ty) :
    TypeCollector :=
  match memberTy with
  | .typeLiteral fns =>
    collectOver (fun f => processFunctionDefinition cfg schema f.1 f.2) fns
  | _ => TypeCollector.emptyC

/-- `processSchemaMembers` (lines 398-422): dispatch on the category member
name. -/
def processSchemaMembers (cfg : NamingConfig) (schema : String) (schemaTy : Ty) :
    TypeCollector :=
  match schemaTy with
  | .typeLiteral ms =>
    collectOver
      (fun m =>
        if m.1 = "Tables" ∨ m.1 = "Views" then processTablesOrViews cfg schema m.2
        else if m.1 = "Enums" then processEnums cfg schema m.2
        else if m.1 = "CompositeTypes" then processCompositeTypes cfg schema m.2
        else if m.1 = "Functions" then processFunctions cfg schema m.2
        else TypeCollector.emptyC)
      ms
  | _ => TypeCollector.emptyC

/-- `isTypeReferenced` (lines 370-396): scans every property signature of the
*whole source file* for a type text containing the fully-qualified nested
path to the enum, in either quote style. -/
def isTypeReferenced (sf : SourceFile) (schema typeName : String) : Bool :=
  let singleQ := "Database['" ++ schema ++ "']['Enums']['" ++ typeName ++ "']"
  let doubleQ := "Database[\"" ++ schema ++ "\"][\"Enums\"][\"" ++ typeName ++ "\"]"
  (propTextsFile sf).any (fun t => sContains t singleQ || sContains t doubleQ)

/-- `processOtherSchemaDependencies` (lines 309-368): for a non-target schema,
emit each enum entry (with union-or-literal body) of its `Enums` member as an
extra declaration, tagged with its origin schema, if and only if
`isTypeReferenced` holds for it. -/
def processOtherSchemaDependencies (sf : SourceFile) (cfg : NamingConfig)
    (target schemaName : String) (schemaTy : Ty) : TypeCollector :=
  if schemaName = target then TypeCollector.emptyC
  else
    match schemaTy with
    | .typeLiteral ms =>
      collectOver
        (fun m =>
          if m.1 = "Enums" then
            match m.2 with
            | .typeLiteral enums =>
              collectOver
                (fun e =>
                  if isUnionOrLitB e.2 then
                    let formattedName := formatName cfg.enumPattern
                      [("schema", schemaName), ("name", e.1)] cfg
                    if isTypeReferenced sf schemaName e.1 then
                      { typeStrings :=
                          ["export type " ++ formattedName ++ " = " ++ renderTy e.2],
                        enumNames := [⟨e.1, formattedName, schemaName⟩],
                        compositeTypeNames := [],
                        mappings := [collectSchemaName cfg cfg.enumSchemaPattern
                          [("schema", schemaName), ("name", e.1)] formattedName] }
                    else TypeCollector.emptyC
                  else TypeCollector.emptyC)
                enums
            | _ => TypeCollector.emptyC
          else TypeCollector.emptyC)
        ms
    | _ => TypeCollector.emptyC

/-- `processSchemaNode` (lines 287-307). -/
def processSchemaNode (sf : SourceFile) (cfg : NamingConfig) (target : String)
    (processDependencies : Bool) (member : String × Ty) : TypeCollector :=
  (if member.1 = target then processSchemaMembers cfg target member.2
   else TypeCollector.emptyC).appendC
  (if processDependencies then
     match member.2 with
     | .typeLiteral _ =>
       processOtherSchemaDependencies sf cfg target member.1 member.2
     | _ => TypeCollector.emptyC
   else TypeCollector.emptyC)

/-- `isMergeDeepReference` (lines 169-176). -/
def isMergeDeepName (n : String) : Bool :=
  n = "MergeDeep" || n = "MergeDeepStrict"

/-- `resolveTypeReference` (lines 254-285): first type-alias declaration in
the file with the referenced name whose type is a type literal. -/
def resolveTypeReference (sf : SourceFile) (name : String) :
    Option (List (String × Ty)) :=
  sf.findSome? fun d =>
    match d with
    | .typeAlias n (.typeLiteral ms) => if n = name then some ms else none
    | _ => none

/-- `extractTypeLiteralFromMergeDeep` (lines 220-249): only the FIRST type
argument is consulted; a direct type literal is used as-is, a type reference
is resolved by name against the file. -/
def extractTypeLiteralFromMergeDeep (sf : SourceFile) (args : List Ty) :
    Option (List (String × Ty)) :=
  match args with
  | [] => none
  | firstArg :: _ =>
    match firstArg with
    | .typeLiteral ms => some ms
    | .typeRefNode n _ => resolveTypeReference sf n
    | _ => none

/-- `isDatabaseDefinition` (lines 145-164). -/
def isDatabaseDefinition : Decl → Bool
  | .interfaceDecl n _ => n = "Database"
  | .typeAlias n ty =>
    n = "Database" &&
      (match ty with
       | .typeLiteral _ => true
       | .typeRefNode m _ => isMergeDeepName m
       | _ => false)
  | .otherDecl => false

def isJsonTypeAlias : Decl → Bool
  | .typeAlias n _ => n = "Json"
  | _ => false

/-- `processDatabaseNode` (lines 182-212): iterate the schema members of the
root map, obtained from the direct literal, the resolved first `MergeDeep`
argument, or the interface body. -/
def processDatabaseNode (sf : SourceFile) (cfg : NamingConfig) (target : String)
    (processDependencies : Bool) : Decl → TypeCollector
  | .typeAlias _ (.typeLiteral ms) =>
    collectOver (processSchemaNode sf cfg target processDependencies) ms
  | .typeAlias _ (.typeRefNode _ args) =>
    match extractTypeLiteralFromMergeDeep sf args with
    | some ms => collectOver (processSchemaNode sf cfg target processDependencies) ms
    | none => TypeCollector.emptyC
  | .typeAlias _ _ => TypeCollector.emptyC
  | .interfaceDecl _ ms =>
    collectOver (processSchemaNode sf cfg target processDependencies) ms
  | .otherDecl => TypeCollector.emptyC

/-- `processSourceFile` (lines 132-143): process each `Database` definition;
push the text of a top-level `Json` type alias verbatim. -/
def processSourceFile (sf : SourceFile) (cfg : NamingConfig) (target : String)
    (processDependencies : Bool) : TypeCollector :=
  collectOver
    (fun d =>
      if isDatabaseDefinition d then
        processDatabaseNode sf cfg target processDependencies d
      else if isJsonTypeAlias d then
        { typeStrings := [renderDecl d], enumNames := [],
          compositeTypeNames := [], mappings := [] }
      else TypeCollector.emptyC)
    sf

/-! ### The cross-reference rewriter -/

def sToLower (s : String) : String := ⟨s.data.map Char.toLower⟩

/-- `schema.replace(/_/g, '')`. -/
def sRemoveUnderscores (s : String) : String := ⟨s.data.filter (· ≠ '_')⟩

/-- The candidate pattern list of `replaceTypeReferences` (lines 722-732), in
source order: the two nested-path spellings, six legacy/guessed name
spellings, and the formatted name itself. -/
def refPatterns (schema category name formattedName : String) : List String :=
  [ "Database[\"" ++ schema ++ "\"][\"" ++ category ++ "\"][\"" ++ name ++ "\"]",
    "Database['" ++ schema ++ "']['" ++ category ++ "']['" ++ name ++ "']",
    schema ++ category ++ name ++ "Schema",
    schema ++ name ++ "Schema",
    sToLower schema ++ name ++ "Schema",
    sRemoveUnderscores schema ++ name ++ "Schema",
    sRemoveUnderscores (sToLower schema) ++ name ++ "Schema",
    capitalizeWords schema ++ name ++ "Schema",
    formattedName ]

/-- One line of `replaceTypeReferences`: the FIRST pattern contained in the
line is replaced (globally on the line) and the remaining patterns are not
tried. -/
def replaceRefsInLine (patterns : List String) (formattedName : String)
    (line : List Char) : List Char :=
  match patterns.find? (fun p => containsSub p.data line) with
  | some p => replaceAllL line p.data formattedName.data
  | none => line

/-- `replaceTypeReferences` (lines 715-749): line-by-line first-matching-
pattern replacement. -/
def replaceTypeReferences (types : String) (schema category name formattedName : String) :
    String :=
  let patterns := refPatterns schema category name formattedName
  ⟨joinWithL ['\n']
    ((splitOnCharL '\n' types.data).map (replaceRefsInLine patterns formattedName))⟩

/-- Match the table-operation regex
`Database\["(\w+)"\]\["(Tables|Views)"\]\["(\w+)"\]\["(\w+)"\]` at the head of
`s`; on success return the three captured words and the rest of the input. -/
def matchTableOpAt (s : List Char) : Option (String × String × String × List Char) :=
  let parseLit := fun (lit : String) (t : List Char) =>
    if lit.data.isPrefixOf t then some (t.drop lit.data.length) else none
  let takeWord1 := fun (t : List Char) =>
    let w := t.takeWhile isWordCh
    if w.isEmpty then none else some (w, t.drop w.length)
  match parseLit "Database[\"" s with
  | none => none
  | some s1 =>
    match takeWord1 s1 with
    | none => none
    | some (w1, s2) =>
      match parseLit "\"][\"" s2 with
      | none => none
      | some s3 =>
        match (match parseLit "Tables" s3 with
               | some r => some r
               | none => parseLit "Views" s3) with
        | none => none
        | some s4 =>
          match parseLit "\"][\"" s4 with
          | none => none
          | some s5 =>
            match takeWord1 s5 with
            | none => none
            | some (w2, s6) =>
              match parseLit "\"][\"" s6 with
              | none => none
              | some s7 =>
                match takeWord1 s7 with
                | none => none
                | some (w3, s8) =>
                  match parseLit "\"]" s8 with
                  | none => none
                  | some s9 => some (⟨w1⟩, ⟨w2⟩, ⟨w3⟩, s9)

def replaceTableOpAux (cfg : NamingConfig) : Nat → List Char → List Char
  | _, [] => []
  | 0, s => s
  | fuel + 1, c :: rest =>
    match matchTableOpAt (c :: rest) with
    | some (schema, table, operation, rem) =>
      (formatName cfg.tableOperationPattern
        [("schema", schema), ("table", table), ("operation", operation)] cfg).data
        ++ replaceTableOpAux cfg fuel rem
    | none => c :: replaceTableOpAux cfg fuel rest

/-- `replaceTableOperationReferences` (lines 861-883): global regex
replacement of double-quoted nested table/view operation paths by the
formatted table-operation name. -/
def replaceTableOperationReferences (cfg : NamingConfig) (typeString : String) : String :=
  ⟨replaceTableOpAux cfg typeString.data.length typeString.data⟩

def hasTableOpAux : List Char → Bool
  | [] => false
  | c :: rest => (matchTableOpAt (c :: rest)).isSome || hasTableOpAux rest

/-- Whether the table-operation regex matches anywhere in the text. -/
def hasTableOpRef (s : String) : Bool := hasTableOpAux s.data

/-- The JS-falsiness fallback `enumSchema || schema` of `formatOutput`. -/
def schemaOrDefault (enumSchema target : String) : String :=
  if enumSchema = "" then target else enumSchema

/-- The rewriting phase of `formatOutput` (lines 686-712): first the
table-operation regex pass, then one `replaceTypeReferences` pass per
collected enum (with its origin schema) and per collected composite type. -/
def rewritePass (cfg : NamingConfig) (schema : String)
    (enumNames : List EnumNameEntry) (compositeNames : List CompositeNameEntry)
    (text : String) : String :=
  let t1 := replaceTableOperationReferences cfg text
  let t2 := enumNames.foldl
    (fun acc e =>
      replaceTypeReferences acc (schemaOrDefault e.schema schema) "Enums"
        e.name e.formattedName)
    t1
  compositeNames.foldl
    (fun acc e => replaceTypeReferences acc schema "CompositeTypes" e.name e.formattedName)
    t2

def sIntercalate (sep : String) (xs : List String) : String :=
  ⟨joinWithL sep.data (xs.map String.data)⟩

/-- Is the declaration string classified as an enum declaration by
`formatOutput`'s `s.includes(' = "')` test? -/
def hasEnumMark (s : String) : Bool := sContains s " = \""

/-- Is the declaration string dropped by `formatOutput`'s
`!s.includes('Record<number')` filter (which applies only to the non-enum
group)? -/
def hasRecordNumber (s : String) : Bool := sContains s "Record<number"

/-- The declaration strings that survive `formatOutput`'s two filters, in
output order (enum-classified strings hoisted first). -/
def keptStrings (c : TypeCollector) : List String :=
  c.typeStrings.filter hasEnumMark ++
    c.typeStrings.filter (fun s => !hasEnumMark s && !hasRecordNumber s)

/-- `formatOutput` (lines 670-713). -/
def formatOutput (c : TypeCollector) (schema : String) (cfg : NamingConfig) : String :=
  let enumTypes := sIntercalate ";\n" (c.typeStrings.filter hasEnumMark)
  let otherTypes := sIntercalate ";\n"
    (c.typeStrings.filter (fun s => !hasEnumMark s && !hasRecordNumber s))
  rewritePass cfg schema c.enumNames c.compositeTypeNames
    (enumTypes ++ "\n\n" ++ otherTypes)

/-- `transformTypes` (lines 95-130), from the parsed tree to the flattened,
cross-reference-rewritten text for one target schema. -/
def transformTypes (sf : SourceFile) (schema : String) (cfg : NamingConfig)
    (processDependencies : Bool) : String :=
  formatOutput (processSourceFile sf cfg schema processDependencies) schema cfg

/-- `getAllSchemas` (lines 799-859): enumerate the top-level property names of
the root map of every `Database` *type alias* (direct literal or `MergeDeep`
shape); interface declarations are not consulted. -/
def getAllSchemas (sf : SourceFile) : List String :=
  sf.foldl
    (fun acc d =>
      acc ++
        match d with
        | .typeAlias n (.typeLiteral ms) =>
          if n = "Database" then ms.map Prod.fst else []
        | .typeAlias n (.typeRefNode m args) =>
          if n = "Database" && isMergeDeepName m then
            match extractTypeLiteralFromMergeDeep sf args with
            | some ms => ms.map Prod.fst
            | none => []
          else []
        | _ => [])
    []

/-! ### The empty-array/tuple pre-transform of `supabase-to-zod.ts`
(`collectTypes`, lines 74-117)

The visitor rewrites every property signature whose declared type is an empty
tuple literal to `unknown[]` and recurses everywhere else.  (In valid parsed
trees the source text `[]` is a zero-element `TupleType` node; the dead
`ArrayTypeNode`-with-`LastTypeNode`-element branch of the source has no
counterpart here because an array type node always carries an element.) -/

mutual
def transformTy : Ty → Ty
  | .typeLiteral ms => .typeLiteral (transformMembers ms)
  | .tupleType es => .tupleType (transformTyList es)
  | .unionType es => .unionType (transformTyList es)
  | .literalType t => .literalType t
  | .typeRefNode n args => .typeRefNode n (transformTyList args)
  | .arrayType e => .arrayType (transformTy e)
  | .unknownKeyword => .unknownKeyword
  | .boolKeyword => .boolKeyword
  | .otherType t => .otherType t

def transformMembers : List (String × Ty) → List (String × Ty)
  | [] => []
  | (n, t) :: rest =>
    (if isEmptyTupleB t then (n, Ty.arrayType Ty.unknownKeyword)
     else (n, transformTy t)) :: transformMembers rest

def transformTyList : List Ty → List Ty
  | [] => []
  | t :: rest => transformTy t :: transformTyList rest
end

def transformDecl : Decl → Decl
  | .typeAlias n ty => .typeAlias n (transformTy ty)
  | .interfaceDecl n ms => .interfaceDecl n (transformMembers ms)
  | .otherDecl => .otherDecl

def transformDecls (sf : SourceFile) : SourceFile := sf.map transformDecl

/-! Whether no property signature anywhere in a type has an empty tuple as
its declared type. -/
mutual
def noEmptyTupleTy : Ty → Bool
  | .typeLiteral ms => noEmptyTupleMembers ms
  | .tupleType es => noEmptyTupleList es
  | .unionType es => noEmptyTupleList es
  | .literalType _ => true
  | .typeRefNode _ args => noEmptyTupleList args
  | .arrayType e => noEmptyTupleTy e
  | .unknownKeyword => true
  | .boolKeyword => true
  | .otherType _ => true

def noEmptyTupleMembers : List (String × Ty) → Bool
  | [] => true
  | (_, t) :: rest => !isEmptyTupleB t && noEmptyTupleTy t && noEmptyTupleMembers rest

def noEmptyTupleList : List Ty → Bool
  | [] => true
  | t :: rest => noEmptyTupleTy t && noEmptyTupleList rest
end

/-! ### The schema-selection logic of `generateContent`
(`supabase-to-zod.ts` lines 148-181) -/

/-- `collectTypes` (lines 63-127): apply the empty-tuple pre-transform, then
flatten one schema. -/
def collectTypes (sf : SourceFile) (schema : String) (cfg : NamingConfig)
    (processDependencies : Bool) : String :=
  transformTypes (transformDecls sf) schema cfg processDependencies

/-- The schema-selection and per-schema flattening prefix of
`generateContent`: if the caller requested no schema, fall back to
`getAllSchemas`; if the resulting list is still empty, throw
`'No schemas specified'` before any generation work; otherwise flatten every
selected schema in order and concatenate.  (The downstream `ts-to-zod`
generation, pretty-printing and file I/O are outside the modelled core.) -/
def generateContent (requestedSchemas : List String) (sf : SourceFile)
    (cfg : NamingConfig) (processDependencies : Bool) :
    Except String (List String × String) :=
  let schemas := if requestedSchemas.isEmpty then getAllSchemas sf
                 else requestedSchemas
  if schemas.isEmpty then Except.error "No schemas specified"
  else Except.ok
    (schemas,
     sIntercalate "" (schemas.map (fun s => collectTypes sf s cfg processDependencies)))

/-! ### The validator-name override engine
(the `supabase-to-zod.ts` revision carrying `buildSchemaNameOverrides`,
lines 481-507; the override map is a JS `Map`, modelled as an association
list with insertion at the end and first-key-wins lookup) -/

/-- `Map.prototype.get`-style lookup on the association-list model of the
override map (keys are unique by construction, so first-key lookup agrees
with the JS `Map`). -/
def lookupA (d : String) : List (String × String) → Option String
  | [] => none
  | kv :: rest => if d = kv.1 then some kv.2 else lookupA d rest

def buildSchemaNameOverridesGo :
    List SchemaNameMapping → List (String × String) → List (String × String)
  | [], overrides => overrides
  | m :: rest, overrides =>
    let defaultSchemaName := toSchemaVariableName m.typeName false
    if defaultSchemaName = "" ∨ defaultSchemaName = m.schemaName then
      buildSchemaNameOverridesGo rest overrides
    else if (lookupA defaultSchemaName overrides).isSome then
      -- a conflicting later mapping is only logged; the map is unchanged
      buildSchemaNameOverridesGo rest overrides
    else
      buildSchemaNameOverridesGo rest (overrides ++ [(defaultSchemaName, m.schemaName)])

def buildSchemaNameOverrides (mappings : List SchemaNameMapping) :
    List (String × String) :=
  buildSchemaNameOverridesGo mappings []

/-! ### Structural counting functions

Independent counts over the embedded tree, used to state the
declaration-count property (spec §8 bullet 1).  These count *entries*, not
emitted strings: qualifying table/view operations, qualifying enum entries,
qualifying composite entries, and `Args`/`Returns` function members. -/

def countOpsOfTable (tableTy : Ty) : Nat :=
  match tableTy with
  | .typeLiteral ops =>
    ops.countP (fun op => op.1 ≠ "" ∧ (isTypeLiteralB op.2 || isTupleB op.2))
  | _ => 0

def countTableOps (memberTy : Ty) : Nat :=
  match memberTy with
  | .typeLiteral tables => (tables.map (fun t => countOpsOfTable t.2)).sum
  | _ => 0

def countEnumEntries (memberTy : Ty) : Nat :=
  match memberTy with
  | .typeLiteral enums => enums.countP (fun e => isUnionOrLitB e.2)
  | _ => 0

def countCompositeEntries (memberTy : Ty) : Nat :=
  match memberTy with
  | .typeLiteral entries => entries.countP (fun e => isTypeLiteralB e.2)
  | _ => 0

def countFnMembersOfFn (funcTy : Ty) : Nat :=
  match funcTy with
  | .typeLiteral members => members.countP (fun m => m.1 = "Args" ∨ m.1 = "Returns")
  | _ => 0

def countFnMembers (memberTy : Ty) : Nat :=
  match memberTy with
  | .typeLiteral fns => (fns.map (fun f => countFnMembersOfFn f.2)).sum
  | _ => 0

/-- Per-schema category counts `(N, M, K, F₂)`: table/view operations, enums,
composite types, and function `Args`/`Returns` members. -/
def schemaCounts (schemaTy : Ty) : Nat × Nat × Nat × Nat :=
  match schemaTy with
  | .typeLiteral ms =>
    ms.foldr
      (fun m acc =>
        if m.1 = "Tables" ∨ m.1 = "Views" then
          (countTableOps m.2 + acc.1, acc.2.1, acc.2.2.1, acc.2.2.2)
        else if m.1 = "Enums" then
          (acc.1, countEnumEntries m.2 + acc.2.1, acc.2.2.1, acc.2.2.2)
        else if m.1 = "CompositeTypes" then
          (acc.1, acc.2.1, countCompositeEntries m.2 + acc.2.2.1, acc.2.2.2)
        else if m.1 = "Functions" then
          (acc.1, acc.2.1, acc.2.2.1, countFnMembers m.2 + acc.2.2.2)
        else acc)
      (0, 0, 0, 0)
  | _ => (0, 0, 0, 0)

/-- The schema members of the root map that the flattening of one `Database`
definition iterates (direct literal, resolved first merge argument, or
interface body). -/
def rootMembersOfDecl (sf : SourceFile) (d : Decl) : List (String × Ty) :=
  match d with
  | .typeAlias _ (.typeLiteral ms) => ms
  | .typeAlias _ (.typeRefNode _ args) =>
    match extractTypeLiteralFromMergeDeep sf args with
    | some ms => ms
    | none => []
  | .typeAlias _ _ => []
  | .interfaceDecl _ ms => ms
  | .otherDecl => []

/-- The total count of category entries, per the claim's formula
`N + M + K + F₂` (each `Args`/`Returns` member counted ONCE), summed over the
target schema's occurrences in every `Database` definition of the file. -/
def claimEntryCount (sf : SourceFile) (target : String) : Nat :=
  (sf.map
    (fun d =>
      if isDatabaseDefinition d then
        ((rootMembersOfDecl sf d).map
          (fun m =>
            if m.1 = target then
              let c := schemaCounts m.2
              c.1 + c.2.1 + c.2.2.1 + c.2.2.2
            else 0)).sum
      else 0)).sum

/-- The number of `Json` type-alias passthrough declarations. -/
def countJsonAliases (sf : SourceFile) : Nat :=
  sf.countP (fun d => !isDatabaseDefinition d && isJsonTypeAlias d)

/-- The code's actual per-schema emission count: every `Args`/`Returns`
member contributes TWO declarations (its name child and its type child). -/
def codeEntryCount (sf : SourceFile) (target : String) : Nat :=
  (sf.map
    (fun d =>
      if isDatabaseDefinition d then
        ((rootMembersOfDecl sf d).map
          (fun m =>
            if m.1 = target then
              let c := schemaCounts m.2
              c.1 + c.2.1 + c.2.2.1 + 2 * c.2.2.2
            else 0)).sum
      else 0)).sum

/-! ### The claim-side reference test for cross-schema enum pull-in

Modelled from the spec's words (§4.2 step 3): "check whether the *target*
schema's own Tables/Views/Functions bodies reference it by its
fully-qualified nested path".  This is the comparison definition for claim
C2; the code's `isTypeReferenced` scans the whole file instead. -/
def targetSchemaReferences (sf : SourceFile) (target refSchema enumName : String) :
    Bool :=
  let singleQ := "Database['" ++ refSchema ++ "']['Enums']['" ++ enumName ++ "']"
  let doubleQ := "Database[\"" ++ refSchema ++ "\"][\"Enums\"][\"" ++ enumName ++ "\"]"
  sf.any fun d =>
    if isDatabaseDefinition d then
      (rootMembersOfDecl sf d).any fun m =>
        m.1 = target &&
          (match m.2 with
           | .typeLiteral cats =>
             cats.any fun cat =>
               (cat.1 = "Tables" || cat.1 = "Views" || cat.1 = "Functions") &&
                 (let t := renderTy cat.2
                  sContains t singleQ || sContains t doubleQ)
           | _ => false)
    else false

/-! ### Generic collector lemmas -/

theorem collectOver_typeStrings_length (f : α → TypeCollector) (l : List α) :
    (collectOver f l).typeStrings.length
      = (l.map (fun x => (f x).typeStrings.length)).sum := by
  induction l with
  | nil => simp [collectOver, TypeCollector.emptyC]
  | cons x rest ih => simp [collectOver, TypeCollector.appendC, ih]

theorem collectOver_mem_enumNames (f : α → TypeCollector) (l : List α)
    (e : EnumNameEntry) :
    e ∈ (collectOver f l).enumNames ↔ ∃ a ∈ l, e ∈ (f a).enumNames := by
  induction l with
  | nil => simp [collectOver, TypeCollector.emptyC]
  | cons x rest ih => simp [collectOver, TypeCollector.appendC, ih]

/-! ### C6: the round-trip naming example -/

/-- **C6** (confirmed).  `formatName` applied to the template
`{schema}{table}{operation}` with placeholders
`{schema: 'my_schema', table: 'user_profile', operation: 'insert'}` under the
default naming configuration returns exactly `MySchemaUserProfileInsert`. -/
theorem c6_formatName_roundtrip :
    formatName "\x7bschema\x7d\x7btable\x7d\x7boperation\x7d"
      [("schema", "my_schema"), ("table", "user_profile"), ("operation", "insert")]
      defaultNamingConfig = "MySchemaUserProfileInsert" := by
  decide

/-! ### C5: empty-tuple normalization -/

theorem transformMembers_cons (n : String) (t : Ty) (rest : List (String × Ty)) :
    transformMembers ((n, t) :: rest)
      = (if isEmptyTupleB t then (n, Ty.arrayType Ty.unknownKeyword)
         else (n, transformTy t)) :: transformMembers rest := rfl

theorem transformTy_not_emptyTuple (t : Ty) : isEmptyTupleB (transformTy t) = isEmptyTupleB t := by
  cases t with
  | tupleType es => cases es <;> simp [transformTy, transformTyList, isEmptyTupleB]
  | _ => simp [transformTy, isEmptyTupleB]

mutual
theorem noEmptyTupleTy_transform : ∀ t : Ty, noEmptyTupleTy (transformTy t) = true
  | .typeLiteral ms => by
    simp only [transformTy, noEmptyTupleTy]
    exact noEmptyTupleMembers_transform ms
  | .tupleType es => by
    simp only [transformTy, noEmptyTupleTy]
    exact noEmptyTupleList_transform es
  | .unionType es => by
    simp only [transformTy, noEmptyTupleTy]
    exact noEmptyTupleList_transform es
  | .literalType t => by simp [transformTy, noEmptyTupleTy]
  | .typeRefNode n args => by
    simp only [transformTy, noEmptyTupleTy]
    exact noEmptyTupleList_transform args
  | .arrayType e => by
    simp only [transformTy, noEmptyTupleTy]
    exact noEmptyTupleTy_transform e
  | .unknownKeyword => by simp [transformTy, noEmptyTupleTy]
  | .boolKeyword => by simp [transformTy, noEmptyTupleTy]
  | .otherType t => by simp [transformTy, noEmptyTupleTy]

theorem noEmptyTupleMembers_transform :
    ∀ ms : List (String × Ty), noEmptyTupleMembers (transformMembers ms) = true
  | [] => by simp [transformMembers, noEmptyTupleMembers]
  | (n, t) :: rest => by
    simp only [transformMembers]
    split
    · next h =>
      simp only [noEmptyTupleMembers, Bool.and_eq_true]
      refine ⟨⟨by simp [isEmptyTupleB], by simp [noEmptyTupleTy]⟩, ?_⟩
      exact noEmptyTupleMembers_transform rest
    · next h =>
      simp only [noEmptyTupleMembers, Bool.and_eq_true]
      refine ⟨⟨?_, noEmptyTupleTy_transform t⟩, noEmptyTupleMembers_transform rest⟩
      rw [transformTy_not_emptyTuple]
      simpa using h

theorem noEmptyTupleList_transform :
    ∀ es : List Ty, noEmptyTupleList (transformTyList es) = true
  | [] => by simp [transformTyList, noEmptyTupleList]
  | t :: rest => by
    simp only [transformTyList, noEmptyTupleList, Bool.and_eq_true]
    exact ⟨noEmptyTupleTy_transform t, noEmptyTupleList_transform rest⟩
end

/-- **C5** (confirmed).  The pre-flattening transform of `collectTypes`
rewrites every property signature whose declared type is an empty tuple
literal to `unknown[]` (first conjunct, the rewrite equation), and after the
transform no property signature anywhere in the tree has an empty tuple as
its declared type (second and third conjuncts), so the flattened body never
contains an empty tuple for such a member.  (An `ArrayTypeNode` always
carries an element type, so the empty-array case coincides with the
zero-element tuple case in the parsed tree.) -/
theorem c5_empty_tuple_normalization :
    (∀ (n : String) (rest : List (String × Ty)),
      transformMembers ((n, Ty.tupleType []) :: rest)
        = (n, Ty.arrayType Ty.unknownKeyword) :: transformMembers rest)
    ∧ (∀ t : Ty, noEmptyTupleTy (transformTy t) = true)
    ∧ (∀ d : Decl, ∀ sf : SourceFile, d ∈ transformDecls sf →
        match d with
        | .typeAlias _ ty => noEmptyTupleTy ty = true
        | .interfaceDecl _ ms => noEmptyTupleMembers ms = true
        | .otherDecl => True) := by
  refine ⟨fun n rest => rfl, noEmptyTupleTy_transform, ?_⟩
  intro d sf hd
  simp only [transformDecls, List.mem_map] at hd
  obtain ⟨d0, _, rfl⟩ := hd
  cases d0 with
  | typeAlias n ty => exact noEmptyTupleTy_transform ty
  | interfaceDecl n ms => exact noEmptyTupleMembers_transform ms
  | otherDecl => trivial

/-! ### C7: first-write-wins validator-name overrides -/

/-- The first mapping in list order that would contribute an override for
default identifier `d`: its derived default must be `d`, non-empty, and
different from its configured name. -/
def firstContributor (mappings : List SchemaNameMapping) (d : String) :
    Option SchemaNameMapping :=
  mappings.find? fun m =>
    toSchemaVariableName m.typeName false = d ∧ d ≠ "" ∧ d ≠ m.schemaName

theorem lookupA_append_singleton (acc : List (String × String)) (k v d : String) :
    lookupA d (acc ++ [(k, v)])
      = match lookupA d acc with
        | some w => some w
        | none => if d = k then some v else none := by
  induction acc with
  | nil => simp [lookupA]
  | cons p rest ih =>
    by_cases h : d = p.1
    · simp [lookupA, h]
    · simp only [List.cons_append, lookupA, if_neg h]
      exact ih

theorem buildSchemaNameOverridesGo_lookup (mappings : List SchemaNameMapping)
    (acc : List (String × String)) (d : String) :
    lookupA d (buildSchemaNameOverridesGo mappings acc)
      = match lookupA d acc with
        | some w => some w
        | none => (firstContributor mappings d).map (·.schemaName) := by
  induction mappings generalizing acc with
  | nil =>
    cases h : lookupA d acc <;> simp [buildSchemaNameOverridesGo, firstContributor, h]
  | cons m rest ih =>
    simp only [buildSchemaNameOverridesGo]
    by_cases hskip : toSchemaVariableName m.typeName false = ""
        ∨ toSchemaVariableName m.typeName false = m.schemaName
    · rw [if_pos hskip, ih]
      have hstep : firstContributor (m :: rest) d = firstContributor rest d := by
        apply List.find?_cons_of_neg
        simp only [decide_eq_true_eq]
        rintro ⟨h1, h2, h3⟩
        rcases hskip with h | h
        · exact h2 (h1 ▸ h)
        · exact h3 (h1 ▸ h)
      rw [hstep]
    · rw [if_neg hskip]
      push_neg at hskip
      obtain ⟨hne, hdiff⟩ := hskip
      by_cases hdup : (lookupA (toSchemaVariableName m.typeName false) acc).isSome
      · rw [if_pos hdup, ih]
        by_cases hd : d = toSchemaVariableName m.typeName false
        · rw [← hd] at hdup
          obtain ⟨w, hw⟩ := Option.isSome_iff_exists.mp hdup
          rw [hw]
        · have hstep : firstContributor (m :: rest) d = firstContributor rest d := by
            apply List.find?_cons_of_neg
            simp only [decide_eq_true_eq]
            rintro ⟨h1, _, _⟩
            exact hd h1.symm
          rw [hstep]
      · rw [if_neg hdup, ih, lookupA_append_singleton]
        by_cases hd : d = toSchemaVariableName m.typeName false
        · have hacc : lookupA d acc = none := by
            rw [hd]
            exact Option.not_isSome_iff_eq_none.mp hdup
          have hstep : firstContributor (m :: rest) d = some m := by
            apply List.find?_cons_of_pos
            simp only [decide_eq_true_eq]
            refine ⟨hd.symm, ?_, ?_⟩
            · rw [hd]; exact hne
            · rw [hd]; exact hdiff
          rw [hacc, hstep, if_pos hd]
          rfl
        · have hstep : firstContributor (m :: rest) d = firstContributor rest d := by
            apply List.find?_cons_of_neg
            simp only [decide_eq_true_eq]
            rintro ⟨h1, _, _⟩
            exact hd h1.symm
          rw [hstep]
          cases h : lookupA d acc
          · rw [if_neg hd]
          · rfl

/-- **C7** (confirmed).  In `buildSchemaNameOverrides`, the override recorded
for any default identifier `d` is exactly the configured name of the
*first-seen* mapping whose derived default is `d` and differs from its
configured name: when two mappings derive the same default with different
configured targets, the override map keeps the first and a later mapping
never replaces it (the conflict is only logged, and the builder is a total
function, so the run does not fail); a mapping whose default equals its
configured name contributes no override entry. -/
theorem c7_override_first_write_wins (mappings : List SchemaNameMapping) (d : String) :
    lookupA d (buildSchemaNameOverrides mappings)
      = (firstContributor mappings d).map (·.schemaName) := by
  rw [buildSchemaNameOverrides, buildSchemaNameOverridesGo_lookup]
  rfl

/-! ### C8: schema auto-discovery and the empty-selection error -/

/-- The `public`/`auth` discovery example of the spec (§8). -/
def discoveryExample : SourceFile :=
  [ .typeAlias "Database" (.typeLiteral
      [("public", .typeLiteral
         [("Enums", .typeLiteral [("st", .literalType "\"a\"")])]),
       ("auth", .typeLiteral [("Tables", .typeLiteral [])])]) ]

/-- **C8** (confirmed).  When the caller specifies no schema,
`generateContent` falls back to `getAllSchemas`; if discovery yields no
schemas it throws the explicit `'No schemas specified'` error before any
generation work occurs (no partial output is produced, the `Except` is an
error); otherwise every discovered schema is processed, in order, and for a
direct-literal root the discovered schemas are exactly the top-level keys of
the root map. -/
theorem c8_discovery_and_empty_error (sf : SourceFile) (cfg : NamingConfig)
    (deps : Bool) :
    (getAllSchemas sf = [] →
      generateContent [] sf cfg deps = Except.error "No schemas specified")
    ∧ (getAllSchemas sf ≠ [] →
      generateContent [] sf cfg deps
        = Except.ok (getAllSchemas sf,
            sIntercalate ""
              ((getAllSchemas sf).map (fun s => collectTypes sf s cfg deps))))
    ∧ (∀ ms : List (String × Ty),
        getAllSchemas [Decl.typeAlias "Database" (Ty.typeLiteral ms)]
          = ms.map Prod.fst) := by
  refine ⟨?_, ?_, ?_⟩
  · intro h
    simp [generateContent, h]
  · intro h
    simp [generateContent, h]
  · intro ms
    simp [getAllSchemas]

/-- Witness for C8 at the spec's `public`/`auth` example: discovery is
non-empty and both schemas are processed. -/
theorem c8_discovery_witness :
    getAllSchemas discoveryExample ≠ [] ∧
      generateContent [] discoveryExample defaultNamingConfig true
        = Except.ok (getAllSchemas discoveryExample,
            sIntercalate ""
              ((getAllSchemas discoveryExample).map
                (fun s => collectTypes discoveryExample s defaultNamingConfig true))) :=
  ⟨by decide,
   (c8_discovery_and_empty_error discoveryExample defaultNamingConfig true).2.1
     (by decide)⟩

/-! ### C10: interface-declared roots are invisible to discovery -/

/-- Is the declaration a *type alias* named `Database`?  (Decidable form of
the hypothesis of `getAllSchemas_nil_of_no_alias`.) -/
def isDatabaseTypeAliasB : Decl → Bool
  | .typeAlias n _ => n = "Database"
  | _ => false


theorem getAllSchemas_nil_of_no_alias (sf : SourceFile)
    (h : ∀ d ∈ sf, isDatabaseTypeAliasB d = false) :
    getAllSchemas sf = [] := by
  rw [getAllSchemas]
  generalize hacc : ([] : List String) = acc
  have : ∀ (l : List Decl), (∀ d ∈ l, isDatabaseTypeAliasB d = false) →
      ∀ acc : List String,
      (l.foldl
        (fun acc d =>
          acc ++
            match d with
            | .typeAlias n (.typeLiteral ms) =>
              if n = "Database" then ms.map Prod.fst else []
            | .typeAlias n (.typeRefNode m args) =>
              if n = "Database" && isMergeDeepName m then
                match extractTypeLiteralFromMergeDeep sf args with
                | some ms => ms.map Prod.fst
                | none => []
              else []
            | _ => []) acc) = acc := by
    intro l hl
    induction l with
    | nil => intro acc; rfl
    | cons d rest ih =>
      intro acc
      have hd := hl d (List.mem_cons_self d rest)
      have hrest : ∀ d ∈ rest, isDatabaseTypeAliasB d = false :=
        fun d hmem => hl d (List.mem_cons_of_mem _ hmem)
      rw [List.foldl_cons]
      have hstep :
          (match d with
            | Decl.typeAlias n (.typeLiteral ms) =>
              if n = "Database" then ms.map Prod.fst else []
            | Decl.typeAlias n (.typeRefNode m args) =>
              if n = "Database" && isMergeDeepName m then
                match extractTypeLiteralFromMergeDeep sf args with
                | some ms => ms.map Prod.fst
                | none => []
              else []
            | _ => ([] : List String)) = [] := by
        cases d with
        | typeAlias n ty =>
          have hn : n ≠ "Database" := by
            simpa [isDatabaseTypeAliasB] using hd
          cases ty <;> simp [hn]
        | interfaceDecl n ms => rfl
        | otherDecl => rfl
      rw [hstep, List.append_nil]
      exact ih hrest acc
  subst hacc
  exact this sf h []

theorem isTypeReferenced_congr {sf1 sf2 : SourceFile}
    (h : propTextsFile sf1 = propTextsFile sf2) :
    isTypeReferenced sf1 = isTypeReferenced sf2 := by
  funext s n
  simp [isTypeReferenced, h]

theorem processOtherSchemaDependencies_congr {sf1 sf2 : SourceFile}
    (h : propTextsFile sf1 = propTextsFile sf2) :
    processOtherSchemaDependencies sf1 = processOtherSchemaDependencies sf2 := by
  funext cfg target schemaName schemaTy
  simp only [processOtherSchemaDependencies, isTypeReferenced_congr h]

theorem processSchemaNode_congr {sf1 sf2 : SourceFile}
    (h : propTextsFile sf1 = propTextsFile sf2) :
    processSchemaNode sf1 = processSchemaNode sf2 := by
  funext cfg target deps member
  simp only [processSchemaNode, processOtherSchemaDependencies_congr h]

/-- **C10** (confirmed).  `getAllSchemas` matches only *type-alias*
declarations named `Database`: for any file with no such alias — in
particular a file whose root is an `interface Database` declaration — it
returns the empty list, so automatic schema discovery fails with the fatal
`'No schemas specified'` error; yet `transformTypes`' own traversal accepts
an interface-declared root and flattens it exactly like the equivalent
type-alias root when the schema is supplied explicitly. -/
theorem c10_interface_invisible_to_discovery (sf : SourceFile)
    (ms : List (String × Ty)) (schema : String) (cfg : NamingConfig) (deps : Bool) :
    ((∀ d ∈ sf, isDatabaseTypeAliasB d = false) → getAllSchemas sf = [])
    ∧ processSourceFile [Decl.interfaceDecl "Database" ms] cfg schema deps
        = processSourceFile [Decl.typeAlias "Database" (Ty.typeLiteral ms)] cfg schema deps
    ∧ getAllSchemas [Decl.interfaceDecl "Database" ms] = []
    ∧ generateContent [] [Decl.interfaceDecl "Database" ms] cfg deps
        = Except.error "No schemas specified" := by
  have hpt : propTextsFile [Decl.interfaceDecl "Database" ms]
      = propTextsFile [Decl.typeAlias "Database" (Ty.typeLiteral ms)] := by
    simp [propTextsFile, propTextsDecl, propTextsTy]
  have hdisc : getAllSchemas [Decl.interfaceDecl "Database" ms] = [] := by
    simp [getAllSchemas]
  refine ⟨getAllSchemas_nil_of_no_alias sf, ?_, hdisc, ?_⟩
  · rw [processSourceFile, processSourceFile]
    simp only [collectOver, isDatabaseDefinition, processDatabaseNode,
      processSchemaNode_congr hpt]
    simp
  · simp [generateContent, hdisc]

/-- Witness for C10 at a concrete interface-rooted file: discovery returns
nothing (and generation errors out), while explicit flattening of `public`
produces the same, non-empty, output as the alias-rooted equivalent. -/
theorem c10_interface_witness :
    (∀ d ∈ [Decl.interfaceDecl "Database"
        [("public", Ty.typeLiteral
          [("Enums", Ty.typeLiteral [("st", Ty.literalType "\"a\"")])])]],
      isDatabaseTypeAliasB d = false) ∧
    getAllSchemas [Decl.interfaceDecl "Database"
        [("public", Ty.typeLiteral
          [("Enums", Ty.typeLiteral [("st", Ty.literalType "\"a\"")])])]] = [] ∧
    (processSourceFile [Decl.interfaceDecl "Database"
        [("public", Ty.typeLiteral
          [("Enums", Ty.typeLiteral [("st", Ty.literalType "\"a\"")])])]]
        defaultNamingConfig "public" true).typeStrings ≠ [] :=
  ⟨by decide,
   (c10_interface_invisible_to_discovery
      [Decl.interfaceDecl "Database"
        [("public", Ty.typeLiteral
          [("Enums", Ty.typeLiteral [("st", Ty.literalType "\"a\"")])])]]
      [("public", Ty.typeLiteral
          [("Enums", Ty.typeLiteral [("st", Ty.literalType "\"a\"")])])]
      "public" defaultNamingConfig true).1 (by decide),
   by decide⟩

/-! ### C1: the declaration-count property -/

theorem processTableOperations_length (cfg : NamingConfig) (schema tname : String)
    (tblTy : Ty) :
    (processTableOperations cfg schema tname tblTy).typeStrings.length
      = countOpsOfTable tblTy := by
  cases tblTy with
  | typeLiteral ops =>
    simp only [processTableOperations, countOpsOfTable,
      collectOver_typeStrings_length]
    induction ops with
    | nil => simp
    | cons op rest ih =>
      rw [List.map_cons, List.sum_cons, List.countP_cons, ih]
      by_cases h1 : op.1 = ""
      · simp [h1, TypeCollector.emptyC]
      · by_cases h2 : isTypeLiteralB op.2 || isTupleB op.2
        · simp [h1, h2, TypeCollector.emptyC]
          omega
        · simp [h1, h2, TypeCollector.emptyC]
  | _ => simp [processTableOperations, countOpsOfTable, TypeCollector.emptyC]

theorem processTablesOrViews_length (cfg : NamingConfig) (schema : String)
    (memberTy : Ty) :
    (processTablesOrViews cfg schema memberTy).typeStrings.length
      = countTableOps memberTy := by
  cases memberTy with
  | typeLiteral tables =>
    simp only [processTablesOrViews, countTableOps, collectOver_typeStrings_length]
    induction tables with
    | nil => simp
    | cons t rest ih =>
      rw [List.map_cons, List.sum_cons, List.map_cons, List.sum_cons, ih,
        processTableOperations_length]
  | _ => simp [processTablesOrViews, countTableOps, TypeCollector.emptyC]

theorem processEnums_length (cfg : NamingConfig) (schema : String) (memberTy : Ty) :
    (processEnums cfg schema memberTy).typeStrings.length
      = countEnumEntries memberTy := by
  cases memberTy with
  | typeLiteral enums =>
    simp only [processEnums, countEnumEntries, collectOver_typeStrings_length]
    induction enums with
    | nil => simp
    | cons e rest ih =>
      rw [List.map_cons, List.sum_cons, List.countP_cons, ih]
      by_cases h : isUnionOrLitB e.2
      · simp [h]
        omega
      · simp [h, TypeCollector.emptyC]
  | _ => simp [processEnums, countEnumEntries, TypeCollector.emptyC]

theorem processCompositeTypes_length (cfg : NamingConfig) (schema : String)
    (memberTy : Ty) :
    (processCompositeTypes cfg schema memberTy).typeStrings.length
      = countCompositeEntries memberTy := by
  cases memberTy with
  | typeLiteral entries =>
    simp only [processCompositeTypes, countCompositeEntries,
      collectOver_typeStrings_length]
    induction entries with
    | nil => simp
    | cons e rest ih =>
      rw [List.map_cons, List.sum_cons, List.countP_cons, ih]
      by_cases h : isTypeLiteralB e.2
      · simp [h]
        omega
      · simp [h, TypeCollector.emptyC]
  | _ => simp [processCompositeTypes, countCompositeEntries, TypeCollector.emptyC]

theorem processFunctionDefinition_length (cfg : NamingConfig) (schema fname : String)
    (funcTy : Ty) :
    (processFunctionDefinition cfg schema fname funcTy).typeStrings.length
      = 2 * countFnMembersOfFn funcTy := by
  cases funcTy with
  | typeLiteral members =>
    simp only [processFunctionDefinition, countFnMembersOfFn,
      collectOver_typeStrings_length]
    induction members with
    | nil => simp
    | cons m rest ih =>
      rw [List.map_cons, List.sum_cons, List.countP_cons, ih]
      by_cases h : m.1 = "Args" ∨ m.1 = "Returns"
      · simp [h]
        omega
      · simp [h, TypeCollector.emptyC]
  | _ => simp [processFunctionDefinition, countFnMembersOfFn, TypeCollector.emptyC]

theorem processFunctions_length (cfg : NamingConfig) (schema : String)
    (memberTy : Ty) :
    (processFunctions cfg schema memberTy).typeStrings.length
      = 2 * countFnMembers memberTy := by
  cases memberTy with
  | typeLiteral fns =>
    simp only [processFunctions, countFnMembers, collectOver_typeStrings_length]
    induction fns with
    | nil => simp
    | cons f rest ih =>
      rw [List.map_cons, List.sum_cons, List.map_cons, List.sum_cons, ih,
        processFunctionDefinition_length]
      omega
  | _ => simp [processFunctions, countFnMembers, TypeCollector.emptyC]

theorem processSchemaMembers_length (cfg : NamingConfig) (schema : String)
    (schemaTy : Ty) :
    (processSchemaMembers cfg schema schemaTy).typeStrings.length
      = (schemaCounts schemaTy).1 + (schemaCounts schemaTy).2.1
        + (schemaCounts schemaTy).2.2.1 + 2 * (schemaCounts schemaTy).2.2.2 := by
  cases schemaTy with
  | typeLiteral ms =>
    simp only [processSchemaMembers, schemaCounts, collectOver_typeStrings_length]
    induction ms with
    | nil => simp
    | cons m rest ih =>
      rw [List.map_cons, List.sum_cons, List.foldr_cons]
      by_cases h1 : m.1 = "Tables" ∨ m.1 = "Views"
      · simp only [if_pos h1, processTablesOrViews_length]
        omega
      · by_cases h2 : m.1 = "Enums"
        · have h1' : ¬ (m.1 = "Tables" ∨ m.1 = "Views") := h1
          simp only [if_neg h1', if_pos h2, processEnums_length]
          omega
        · by_cases h3 : m.1 = "CompositeTypes"
          · simp only [if_neg h1, if_neg h2, if_pos h3, processCompositeTypes_length]
            omega
          · by_cases h4 : m.1 = "Functions"
            · simp only [if_neg h1, if_neg h2, if_neg h3, if_pos h4,
                processFunctions_length]
              omega
            · simp only [if_neg h1, if_neg h2, if_neg h3, if_neg h4]
              simpa [TypeCollector.emptyC] using ih
  | _ => simp [processSchemaMembers, schemaCounts, TypeCollector.emptyC]

theorem processSchemaNode_length_noDeps (sf : SourceFile) (cfg : NamingConfig)
    (target : String) (m : String × Ty) :
    (processSchemaNode sf cfg target false m).typeStrings.length
      = if m.1 = target then
          (schemaCounts m.2).1 + (schemaCounts m.2).2.1
            + (schemaCounts m.2).2.2.1 + 2 * (schemaCounts m.2).2.2.2
        else 0 := by
  simp only [processSchemaNode, if_neg (Bool.false_ne_true), TypeCollector.appendC]
  by_cases h : m.1 = target
  · simp [h, processSchemaMembers_length, TypeCollector.emptyC]
  · simp [h, TypeCollector.emptyC]

theorem processDatabaseNode_length_noDeps (sf : SourceFile) (cfg : NamingConfig)
    (target : String) (d : Decl) :
    (processDatabaseNode sf cfg target false d).typeStrings.length
      = ((rootMembersOfDecl sf d).map
          (fun m =>
            if m.1 = target then
              (schemaCounts m.2).1 + (schemaCounts m.2).2.1
                + (schemaCounts m.2).2.2.1 + 2 * (schemaCounts m.2).2.2.2
            else 0)).sum := by
  have key : ∀ ms : List (String × Ty),
      (collectOver (processSchemaNode sf cfg target false) ms).typeStrings.length
        = (ms.map
            (fun m =>
              if m.1 = target then
                (schemaCounts m.2).1 + (schemaCounts m.2).2.1
                  + (schemaCounts m.2).2.2.1 + 2 * (schemaCounts m.2).2.2.2
              else 0)).sum := by
    intro ms
    rw [collectOver_typeStrings_length]
    congr 1
    apply List.map_congr_left
    intro m _
    exact processSchemaNode_length_noDeps sf cfg target m
  cases d with
  | typeAlias n ty =>
    cases ty with
    | typeLiteral ms => simpa [processDatabaseNode, rootMembersOfDecl] using key ms
    | typeRefNode r args =>
      simp only [processDatabaseNode, rootMembersOfDecl]
      cases h : extractTypeLiteralFromMergeDeep sf args with
      | none => simp [TypeCollector.emptyC]
      | some ms => simpa using key ms
    | _ => simp [processDatabaseNode, rootMembersOfDecl, TypeCollector.emptyC]
  | interfaceDecl n ms => simpa [processDatabaseNode, rootMembersOfDecl] using key ms
  | otherDecl => simp [processDatabaseNode, rootMembersOfDecl, TypeCollector.emptyC]

theorem appendC_typeStrings (a b : TypeCollector) :
    (a.appendC b).typeStrings = a.typeStrings ++ b.typeStrings := rfl

theorem processSourceFile_length_noDeps (sf : SourceFile) (cfg : NamingConfig)
    (target : String) :
    (processSourceFile sf cfg target false).typeStrings.length
      = countJsonAliases sf + codeEntryCount sf target := by
  have key : ∀ l : List Decl,
      (collectOver
        (fun d =>
          if isDatabaseDefinition d then
            processDatabaseNode sf cfg target false d
          else if isJsonTypeAlias d then
            { typeStrings := [renderDecl d], enumNames := [],
              compositeTypeNames := [], mappings := [] }
          else TypeCollector.emptyC)
        l).typeStrings.length
        = l.countP (fun d => !isDatabaseDefinition d && isJsonTypeAlias d)
          + (l.map
              (fun d =>
                if isDatabaseDefinition d then
                  ((rootMembersOfDecl sf d).map
                    (fun m =>
                      if m.1 = target then
                        (schemaCounts m.2).1 + (schemaCounts m.2).2.1
                          + (schemaCounts m.2).2.2.1 + 2 * (schemaCounts m.2).2.2.2
                      else 0)).sum
                else 0)).sum := by
    intro l
    induction l with
    | nil => simp [collectOver, TypeCollector.emptyC]
    | cons d rest ih =>
      rw [collectOver, appendC_typeStrings, List.length_append, ih,
        List.countP_cons, List.map_cons, List.sum_cons]
      by_cases hdb : isDatabaseDefinition d
      · rw [if_pos hdb, if_pos hdb, processDatabaseNode_length_noDeps]
        have hb : (!isDatabaseDefinition d && isJsonTypeAlias d) = false := by
          simp [hdb]
        rw [hb]
        simp only [Bool.false_eq_true, if_false]
        omega
      · rw [if_neg hdb, if_neg hdb]
        by_cases hj : isJsonTypeAlias d
        · rw [if_pos hj]
          have hb : (!isDatabaseDefinition d && isJsonTypeAlias d) = true := by
            simp [hdb, hj]
          rw [hb]
          simp only [if_true, List.length_cons, List.length_nil]
          omega
        · rw [if_neg hj]
          have hb : (!isDatabaseDefinition d && isJsonTypeAlias d) = false := by
            simp [hj]
          rw [hb]
          simp only [Bool.false_eq_true, if_false, TypeCollector.emptyC, List.length_nil]
          omega
  rw [processSourceFile, key sf]
  rfl

theorem filter_split_length (P Q : String → Bool) (l : List String)
    (h : ∀ s ∈ l, P s = true ∨ Q s = false) :
    (l.filter P).length + (l.filter (fun s => !P s && !Q s)).length = l.length := by
  induction l with
  | nil => simp
  | cons s rest ih =>
    have hrest : ∀ x ∈ rest, P x = true ∨ Q x = false :=
      fun x hx => h x (List.mem_cons_of_mem _ hx)
    have IH := ih hrest
    by_cases hp : P s = true
    · rw [List.filter_cons_of_pos hp, List.filter_cons_of_neg (by simp [hp])]
      simp only [List.length_cons]
      omega
    · have hq : Q s = false := by
        rcases h s (List.mem_cons_self s rest) with h1 | h1
        · exact absurd h1 hp
        · exact h1
      rw [List.filter_cons_of_neg (by simp [hp]),
        List.filter_cons_of_pos (by simp [hp, hq])]
      simp only [List.length_cons]
      omega

theorem keptStrings_length_of_all_kept (c : TypeCollector)
    (h : ∀ s ∈ c.typeStrings, hasEnumMark s = true ∨ hasRecordNumber s = false) :
    (keptStrings c).length = c.typeStrings.length := by
  rw [keptStrings, List.length_append]
  exact filter_split_length hasEnumMark hasRecordNumber c.typeStrings h

/-- **C1** (amended).  With dependency processing disabled (pull-ins from
other schemas would add further declarations) and no declaration string
excluded by `formatOutput`'s numeric-indexed-map filter, the number of
flattened declarations in the output is

  `J + N + M + K + 2·F₂`

where `J` counts top-level `Json` type-alias passthroughs, `N` the qualifying
table/view operations, `M` the qualifying enums, `K` the qualifying composite
types, and `F₂` the function `Args`/`Returns` members — each function member
contributing TWO declarations (its name child and its type child are both
visited by the unguarded `forEachChild` of `processFunctionDefinition`), not
one as the original claim's `2F` formula (one per member) states. -/
theorem c1_declaration_count (sf : SourceFile) (cfg : NamingConfig) (target : String)
    (h : ∀ s ∈ (processSourceFile sf cfg target false).typeStrings,
      hasEnumMark s = true ∨ hasRecordNumber s = false) :
    (keptStrings (processSourceFile sf cfg target false)).length
      = countJsonAliases sf + codeEntryCount sf target := by
  rw [keptStrings_length_of_all_kept _ h, processSourceFile_length_noDeps]

/-- The C1 counterexample input: a `Json` alias plus one function with `Args`
and `Returns` members, no tables, enums or composite types. -/
def c1cx : SourceFile :=
  [ .typeAlias "Json" (.otherType "string | number"),
    .typeAlias "Database" (.typeLiteral
      [("public", .typeLiteral
        [("Functions", .typeLiteral
          [("get_status", .typeLiteral
            [("Args", .typeLiteral [("name_param", .otherType "string")]),
             ("Returns", .boolKeyword)])])])]) ]

/-- **C1 counterexample.**  On `c1cx` (one function, `F = 1`, `N = M = K = 0`,
no exclusion applies) the claim's formula `N + M + K + 2F` gives `2`, but
`transformTypes` (with its default dependency processing) emits `5` kept
declarations: the `Json` passthrough plus two declarations per function
member. -/
theorem c1_count_counterexample :
    (keptStrings (processSourceFile c1cx defaultNamingConfig "public" true)).length = 5
    ∧ claimEntryCount c1cx "public" = 2
    ∧ (keptStrings (processSourceFile c1cx defaultNamingConfig "public" true)).length
        ≠ claimEntryCount c1cx "public" := by
  refine ⟨by decide, by decide, by decide⟩

/-- Witness for C1 on `c1cx` with dependency processing disabled: the
hypothesis (no excluded declaration) holds concretely and the amended count
`J + N + M + K + 2·F₂ = 1 + 0 + 0 + 0 + 2·2 = 5` is realized. -/
theorem c1_declaration_count_witness :
    (∀ s ∈ (processSourceFile c1cx defaultNamingConfig "public" false).typeStrings,
      hasEnumMark s = true ∨ hasRecordNumber s = false)
    ∧ (keptStrings (processSourceFile c1cx defaultNamingConfig "public" false)).length
        = countJsonAliases c1cx + codeEntryCount c1cx "public" :=
  ⟨by decide, c1_declaration_count c1cx defaultNamingConfig "public" (by decide)⟩

/-! ### C2: cross-schema enum pull-in -/

/-- The enum entries of a schema's type literal (the entries iterated by the
`Enums` branch of `processOtherSchemaDependencies`). -/
def enumEntriesOf : Ty → List (String × Ty)
  | .typeLiteral ms =>
    (ms.filter (fun m => m.1 = "Enums")).flatMap
      (fun m => match m.2 with
        | .typeLiteral es => es
        | _ => [])
  | _ => []

/-- **C2** (amended).  With dependency processing enabled, a foreign-schema
enum entry (with union-or-literal body) is emitted as an extra tagged
declaration if and only if its fully-qualified nested path
`Database[schema]['Enums'][name]` (either quote style) occurs in the declared
type text of *some property signature anywhere in the source file* — the
code's `isTypeReferenced` scans the whole file, NOT only the target schema's
own Tables/Views/Functions bodies as the original claim states. -/
theorem c2_foreign_enum_iff_referenced (sf : SourceFile) (cfg : NamingConfig)
    (target schemaName : String) (schemaTy : Ty) (ename : String) (ety : Ty)
    (fname : String)
    (hne : schemaName ≠ target)
    (hmem : (ename, ety) ∈ enumEntriesOf schemaTy)
    (hq : isUnionOrLitB ety = true)
    (hf : fname = formatName cfg.enumPattern
      [("schema", schemaName), ("name", ename)] cfg) :
    (⟨ename, fname, schemaName⟩ : EnumNameEntry)
        ∈ (processOtherSchemaDependencies sf cfg target schemaName schemaTy).enumNames
      ↔ isTypeReferenced sf schemaName ename = true := by
  cases schemaTy with
  | typeLiteral ms =>
    rw [processOtherSchemaDependencies, if_neg hne]
    rw [collectOver_mem_enumNames]
    constructor
    · rintro ⟨m, hm, hin⟩
      by_cases hE : m.1 = "Enums"
      · rw [if_pos hE] at hin
        cases hty : m.2 with
        | typeLiteral es =>
          rw [hty, collectOver_mem_enumNames] at hin
          obtain ⟨e, he, hin2⟩ := hin
          by_cases hu : isUnionOrLitB e.2
          · rw [if_pos hu] at hin2
            by_cases hr : isTypeReferenced sf schemaName e.1
            · rw [if_pos hr] at hin2
              simp only [List.mem_singleton] at hin2
              have : e.1 = ename := congrArg EnumNameEntry.name hin2.symm
              rwa [this] at hr
            · rw [if_neg hr] at hin2
              simp [TypeCollector.emptyC] at hin2
          · rw [if_neg hu] at hin2
            simp [TypeCollector.emptyC] at hin2
        | tupleType es => rw [hty] at hin; simp [TypeCollector.emptyC] at hin
        | unionType es => rw [hty] at hin; simp [TypeCollector.emptyC] at hin
        | literalType t => rw [hty] at hin; simp [TypeCollector.emptyC] at hin
        | typeRefNode n args => rw [hty] at hin; simp [TypeCollector.emptyC] at hin
        | arrayType e => rw [hty] at hin; simp [TypeCollector.emptyC] at hin
        | unknownKeyword => rw [hty] at hin; simp [TypeCollector.emptyC] at hin
        | boolKeyword => rw [hty] at hin; simp [TypeCollector.emptyC] at hin
        | otherType t => rw [hty] at hin; simp [TypeCollector.emptyC] at hin
      · rw [if_neg hE] at hin
        simp [TypeCollector.emptyC] at hin
    · intro hr
      simp only [enumEntriesOf, List.mem_flatMap, List.mem_filter] at hmem
      obtain ⟨m, ⟨hm, hE⟩, hin⟩ := hmem
      refine ⟨m, hm, ?_⟩
      rw [if_pos (by simpa using hE)]
      cases hty : m.2 with
      | typeLiteral es =>
        rw [hty] at hin
        rw [collectOver_mem_enumNames]
        refine ⟨(ename, ety), hin, ?_⟩
        rw [if_pos hq, if_pos hr, ← hf]
        simp
      | tupleType es => rw [hty] at hin; simp at hin
      | unionType es => rw [hty] at hin; simp at hin
      | literalType t => rw [hty] at hin; simp at hin
      | typeRefNode n args => rw [hty] at hin; simp at hin
      | arrayType e => rw [hty] at hin; simp at hin
      | unknownKeyword => rw [hty] at hin; simp at hin
      | boolKeyword => rw [hty] at hin; simp at hin
      | otherType t => rw [hty] at hin; simp at hin
  | _ => simp [enumEntriesOf] at hmem

/-- The C2 counterexample input: target schema `A` never references `B`'s
enum `status`; only the third schema `C` does. -/
def c2cx : SourceFile :=
  [ .typeAlias "Database" (.typeLiteral
      [ ("A", .typeLiteral [("Tables", .typeLiteral
          [("t", .typeLiteral [("Row", .typeLiteral [("id", .otherType "number")])])])]),
        ("B", .typeLiteral [("Enums", .typeLiteral
          [("status", .unionType [.literalType "\"on\"", .literalType "\"off\""])])]),
        ("C", .typeLiteral [("Tables", .typeLiteral
          [("u", .typeLiteral [("Row", .typeLiteral
            [("s", .otherType "Database['B']['Enums']['status']")])])])]) ]) ]

/-- **C2 counterexample.**  Flattening target schema `A` of `c2cx` with
dependency processing enabled emits `B`'s enum `status` (it appears in the
collected enum names, tagged with origin schema `B`) even though `A`'s own
Tables/Views/Functions bodies never reference it — only the unrelated schema
`C` does — refuting the claim's "if and only if the *target* schema's own
bodies reference it". -/
theorem c2_pullin_counterexample :
    (⟨"status", "BStatus", "B"⟩ : EnumNameEntry)
        ∈ (processSourceFile c2cx defaultNamingConfig "A" true).enumNames
    ∧ targetSchemaReferences c2cx "A" "B" "status" = false := by
  refine ⟨by decide, by decide⟩

/-- Witness for C2 on `c2cx`: the hypotheses hold concretely for `B`'s
`status` entry, and the theorem yields that its emission is equivalent to the
whole-file reference test, which is true here. -/
theorem c2_foreign_enum_witness :
    ("B" : String) ≠ "A"
    ∧ ("status", Ty.unionType [Ty.literalType "\"on\"", Ty.literalType "\"off\""])
        ∈ enumEntriesOf (Ty.typeLiteral [("Enums", Ty.typeLiteral
            [("status", Ty.unionType [Ty.literalType "\"on\"", Ty.literalType "\"off\""])])])
          -- `enumEntriesOf` reduces to the singleton list of this entry
    ∧ ((⟨"status", "BStatus", "B"⟩ : EnumNameEntry)
        ∈ (processOtherSchemaDependencies c2cx defaultNamingConfig "A" "B"
            (Ty.typeLiteral [("Enums", Ty.typeLiteral
              [("status", Ty.unionType [Ty.literalType "\"on\"", Ty.literalType "\"off\""])])])).enumNames
      ↔ isTypeReferenced c2cx "B" "status" = true) :=
  ⟨by decide, List.mem_singleton.mpr rfl,
   c2_foreign_enum_iff_referenced c2cx defaultNamingConfig "A" "B"
     (Ty.typeLiteral [("Enums", Ty.typeLiteral
       [("status", Ty.unionType [Ty.literalType "\"on\"", Ty.literalType "\"off\""])])])
     "status" (Ty.unionType [Ty.literalType "\"on\"", Ty.literalType "\"off\""])
     "BStatus" (by decide) (List.mem_singleton.mpr rfl) (by decide) (by decide)⟩

/-! ### C9: the merge-shaped root and its second argument -/

/-- The shared first merge argument of the C9 counterexample: schemas `A`
(the target) and `B` (with enum `e`). -/
def c9first : Ty := .typeLiteral
  [ ("A", .typeLiteral [("Tables", .typeLiteral [])]),
    ("B", .typeLiteral [("Enums", .typeLiteral
      [("e", .unionType [.literalType "\"x\"", .literalType "\"y\""])])]) ]

/-- Merge-rooted file whose SECOND argument contains a property referencing
`B`'s enum by nested path. -/
def c9cxA : SourceFile :=
  [ .typeAlias "Database" (.typeRefNode "MergeDeep"
      [c9first,
       .typeLiteral [("C", .typeLiteral [("Tables", .typeLiteral
         [("t", .typeLiteral [("Row", .typeLiteral
           [("c", .otherType "Database[\"B\"][\"Enums\"][\"e\"]")])])])])]]) ]

/-- The same file with an empty second merge argument. -/
def c9cxB : SourceFile :=
  [ .typeAlias "Database" (.typeRefNode "MergeDeep" [c9first, .typeLiteral []]) ]

/-- **C9 counterexample.**  `c9cxA` and `c9cxB` differ only in the second
`MergeDeep` type argument, yet flattening target `A` (with the default
dependency processing) produces different outputs — the nested-path reference
inside the second argument makes `isTypeReferenced` pull `B`'s enum in — so
flattening does NOT consult only the first type argument.  (Schema
enumeration is nevertheless identical on both.) -/
theorem c9_second_arg_counterexample :
    (processSourceFile c9cxA defaultNamingConfig "A" true).typeStrings
        ≠ (processSourceFile c9cxB defaultNamingConfig "A" true).typeStrings
    ∧ getAllSchemas c9cxA = getAllSchemas c9cxB := by
  refine ⟨by decide, by decide⟩

theorem resolveTypeReference_merge_head (name : String) (mty : Ty) (rest : SourceFile)
    (hnl : (match mty with | .typeLiteral _ => false | _ => true) = true) :
    ∀ n, resolveTypeReference (Decl.typeAlias name mty :: rest) n
      = resolveTypeReference rest n := by
  intro n
  rw [resolveTypeReference, resolveTypeReference, List.findSome?_cons]
  cases mty <;> simp_all

theorem extract_congr {sf1 sf2 : SourceFile}
    (h : ∀ n, resolveTypeReference sf1 n = resolveTypeReference sf2 n) :
    extractTypeLiteralFromMergeDeep sf1 = extractTypeLiteralFromMergeDeep sf2 := by
  funext args
  cases args with
  | nil => rfl
  | cons firstArg rest =>
    cases firstArg <;> simp [extractTypeLiteralFromMergeDeep, h]

theorem processSchemaNode_noDeps_sf_irrelevant (sf1 sf2 : SourceFile)
    (cfg : NamingConfig) (target : String) :
    processSchemaNode sf1 cfg target false = processSchemaNode sf2 cfg target false := by
  funext m
  rfl

/-- **C9** (amended).  Schema *enumeration* consults only the first
`MergeDeep` type argument: replacing the second argument never changes
`getAllSchemas` (first conjunct); with dependency processing *disabled*,
flattening is likewise independent of the second argument (second conjunct);
and the first argument is resolved to a map literal either directly or via a
by-name reference to a type-alias declaration in the same file (third and
fourth conjuncts).  With dependency processing enabled, however, the
whole-file reference scan does read the second argument's body text (see the
counterexample), which is what the original claim's "flattening consults only
the first type argument" misses. -/
theorem c9_merge_second_argument (M : String) (a b b' : Ty) (rest : SourceFile)
    (cfg : NamingConfig) (target : String) (ms : List (String × Ty))
    (hM : isMergeDeepName M = true) :
    (getAllSchemas (Decl.typeAlias "Database" (Ty.typeRefNode M [a, b]) :: rest)
        = getAllSchemas (Decl.typeAlias "Database" (Ty.typeRefNode M [a, b']) :: rest))
    ∧ (processSourceFile (Decl.typeAlias "Database" (Ty.typeRefNode M [a, b]) :: rest)
          cfg target false
        = processSourceFile (Decl.typeAlias "Database" (Ty.typeRefNode M [a, b']) :: rest)
          cfg target false)
    ∧ getAllSchemas [Decl.typeAlias "Database" (Ty.typeRefNode M (Ty.typeLiteral ms :: [b]))]
        = ms.map Prod.fst
    ∧ getAllSchemas
        [Decl.typeAlias "Database" (Ty.typeRefNode M (Ty.typeRefNode "DatabaseGenerated" [] :: [b])),
         Decl.typeAlias "DatabaseGenerated" (Ty.typeLiteral ms)]
        = ms.map Prod.fst := by
  have hres : ∀ n,
      resolveTypeReference (Decl.typeAlias "Database" (Ty.typeRefNode M [a, b]) :: rest) n
        = resolveTypeReference (Decl.typeAlias "Database" (Ty.typeRefNode M [a, b']) :: rest) n := by
    intro n
    rw [resolveTypeReference_merge_head _ _ _ (by rfl),
      resolveTypeReference_merge_head _ _ _ (by rfl)]
  have hext : extractTypeLiteralFromMergeDeep
        (Decl.typeAlias "Database" (Ty.typeRefNode M [a, b]) :: rest)
      = extractTypeLiteralFromMergeDeep
        (Decl.typeAlias "Database" (Ty.typeRefNode M [a, b']) :: rest) :=
    extract_congr hres
  have htail : ∀ sf : SourceFile, ∀ x y : Ty,
      extractTypeLiteralFromMergeDeep sf [a, x] = extractTypeLiteralFromMergeDeep sf [a, y] := by
    intro sf x y
    cases a <;> rfl
  refine ⟨?_, ?_, ?_, ?_⟩
  · simp only [getAllSchemas, hext]
    rw [List.foldl_cons, List.foldl_cons]
    congr 1
  · have hnode : processSchemaNode
          (Decl.typeAlias "Database" (Ty.typeRefNode M [a, b]) :: rest) cfg target false
        = processSchemaNode
          (Decl.typeAlias "Database" (Ty.typeRefNode M [a, b']) :: rest) cfg target false :=
      processSchemaNode_noDeps_sf_irrelevant _ _ cfg target
    have hdb : processDatabaseNode
          (Decl.typeAlias "Database" (Ty.typeRefNode M [a, b]) :: rest) cfg target false
        = processDatabaseNode
          (Decl.typeAlias "Database" (Ty.typeRefNode M [a, b']) :: rest) cfg target false := by
      funext d
      cases d with
      | typeAlias n ty =>
        cases ty <;> simp only [processDatabaseNode, hext, hnode]
      | interfaceDecl n ms2 => simp only [processDatabaseNode, hnode]
      | otherDecl => rfl
    simp only [processSourceFile, hdb]
    simp only [collectOver]
    congr 1
  · simp [getAllSchemas, hM, extractTypeLiteralFromMergeDeep]
  · simp [getAllSchemas, hM, extractTypeLiteralFromMergeDeep, resolveTypeReference,
      List.findSome?]

/-- Witness for C9 at the counterexample's own first argument: with
`M = "MergeDeep"`, enumeration and (dependency-free) flattening are invariant
under swapping the two concrete second arguments of `c9cxA`/`c9cxB`, and both
resolution shapes enumerate the literal's keys. -/
theorem c9_merge_second_argument_witness :
    isMergeDeepName "MergeDeep" = true
    ∧ (getAllSchemas (Decl.typeAlias "Database" (Ty.typeRefNode "MergeDeep"
          [c9first, Ty.typeLiteral [("C", Ty.typeLiteral [])]]) :: [])
        = getAllSchemas (Decl.typeAlias "Database" (Ty.typeRefNode "MergeDeep"
          [c9first, Ty.typeLiteral []]) :: [])) :=
  ⟨by decide,
   (c9_merge_second_argument "MergeDeep" c9first
     (Ty.typeLiteral [("C", Ty.typeLiteral [])]) (Ty.typeLiteral []) []
     defaultNamingConfig "A" [] (by decide)).1⟩

/-! ### C3: the cross-reference rewrite pass is not idempotent -/

/-- **C3 counterexample.**  On a line carrying the same enum reference in both
quote styles, `replaceTypeReferences` (via the rewrite phase of
`formatOutput`) replaces only the first matching pattern: the single-quoted
nested path survives one pass (second conjunct), and a second application of
the pass changes the text again (first conjunct) — so the rewriter is neither
idempotent nor exhaustive on already-rewritten text. -/
theorem c3_rewrite_counterexample :
    (rewritePass defaultNamingConfig "A" [⟨"e", "AE", "A"⟩] []
        (rewritePass defaultNamingConfig "A" [⟨"e", "AE", "A"⟩] []
          "export type X = Database[\"A\"][\"Enums\"][\"e\"] | Database['A']['Enums']['e']")
      ≠ rewritePass defaultNamingConfig "A" [⟨"e", "AE", "A"⟩] []
          "export type X = Database[\"A\"][\"Enums\"][\"e\"] | Database['A']['Enums']['e']")
    ∧ sContains
        (rewritePass defaultNamingConfig "A" [⟨"e", "AE", "A"⟩] []
          "export type X = Database[\"A\"][\"Enums\"][\"e\"] | Database['A']['Enums']['e']")
        "Database['A']['Enums']['e']" = true := by
  refine ⟨by decide, by decide⟩

theorem replaceAllAux_self (pat : List Char) : ∀ (fuel : Nat) (s : List Char),
    replaceAllAux pat pat fuel s = s
  | _, [] => by simp [replaceAllAux]
  | 0, _ :: _ => by simp [replaceAllAux]
  | fuel + 1, c :: rest => by
    rw [replaceAllAux]
    split
    · next h =>
      simp only [Bool.and_eq_true, ne_eq, decide_eq_true_eq] at h
      obtain ⟨hne, hpre⟩ := h
      have hpre' : pat <+: c :: rest := List.isPrefixOf_iff_prefix.mp hpre
      obtain ⟨t, ht⟩ := hpre'
      rw [replaceAllAux_self pat fuel]
      cases pat with
      | nil => exact absurd rfl hne
      | cons p ps =>
        have hc : p = c ∧ ps ++ t = rest := by
          have := ht
          simp only [List.cons_append] at this
          exact ⟨(List.cons.injEq _ _ _ _ ▸ this).1, (List.cons.injEq _ _ _ _ ▸ this).2⟩
        obtain ⟨hp, hrest⟩ := hc
        have hdrop : List.drop ((p :: ps).length - 1) rest = t := by
          rw [← hrest]
          simp
        rw [hdrop, hp]
        simp [hrest]
    · rw [replaceAllAux_self pat fuel]

theorem find?_append_of_forall_neg {pred : String → Bool} {l1 l2 : List String}
    (h : ∀ p ∈ l1, pred p = false) :
    List.find? pred (l1 ++ l2) = List.find? pred l2 := by
  rw [List.find?_append]
  have : List.find? pred l1 = none := List.find?_eq_none.mpr (by
    intro x hx
    simp [h x hx])
  rw [this]
  rfl

/-- A line in which none of the eight earlier (nested-path or legacy)
patterns occurs is left unchanged by `replaceRefsInLine`: either no pattern
matches at all, or only the formatted name itself matches and replacing it by
itself is the identity. -/
theorem replaceRefsInLine_id (schema category name formattedName : String)
    (line : List Char)
    (h : ∀ p ∈ (refPatterns schema category name formattedName).dropLast,
      containsSub p.data line = false) :
    replaceRefsInLine (refPatterns schema category name formattedName)
      formattedName line = line := by
  rw [replaceRefsInLine]
  have hsplit : refPatterns schema category name formattedName
      = (refPatterns schema category name formattedName).dropLast ++ [formattedName] := by
    rfl
  rw [hsplit, find?_append_of_forall_neg (by
    intro p hp
    simp [h p hp])]
  cases hf : List.find? (fun p => containsSub p.data line) [formattedName] with
  | none => rfl
  | some p =>
    have hp : p = formattedName := by
      have hmem := List.mem_of_find?_eq_some hf
      simpa using hmem
    rw [hp]
    show replaceAllL line formattedName.data formattedName.data = line
    rw [replaceAllL, replaceAllAux_self]

theorem replaceTypeReferences_id (types : String)
    (schema category name formattedName : String)
    (h : ∀ line ∈ splitOnCharL '\n' types.data,
      ∀ p ∈ (refPatterns schema category name formattedName).dropLast,
        containsSub p.data line = false) :
    replaceTypeReferences types schema category name formattedName = types := by
  rw [replaceTypeReferences]
  have hmap : (splitOnCharL '\n' types.data).map
      (replaceRefsInLine (refPatterns schema category name formattedName) formattedName)
      = splitOnCharL '\n' types.data := by
    rw [List.map_congr_left
      (fun line hline => replaceRefsInLine_id schema category name formattedName line
        (h line hline))]
    exact List.map_id _
  rw [hmap, joinWithL_splitOnCharL]

theorem replaceTableOpAux_id (cfg : NamingConfig) (s : List Char)
    (h : hasTableOpAux s = false) : ∀ fuel, replaceTableOpAux cfg fuel s = s := by
  induction s with
  | nil => intro fuel; cases fuel <;> rfl
  | cons c rest ih =>
    intro fuel
    rw [hasTableOpAux, Bool.or_eq_false_iff] at h
    obtain ⟨h1, h2⟩ := h
    cases fuel with
    | zero => rfl
    | succ fuel =>
      rw [replaceTableOpAux]
      cases hm : matchTableOpAt (c :: rest) with
      | some r => rw [hm] at h1; simp at h1
      | none => rw [ih h2 fuel]

theorem replaceTableOperationReferences_id (cfg : NamingConfig) (s : String)
    (h : hasTableOpRef s = false) :
    replaceTableOperationReferences cfg s = s := by
  rw [replaceTableOperationReferences, replaceTableOpAux_id cfg s.data h]

/-- The per-tuple hypothesis of the amended C3 statement: none of the eight
earlier patterns of any collected tuple occurs in any line of the text. -/
def noEarlierPatterns (schema : String) (enumNames : List EnumNameEntry)
    (compositeNames : List CompositeNameEntry) (t : String) : Prop :=
  (∀ line ∈ splitOnCharL '\n' t.data,
    ∀ e ∈ enumNames,
      ∀ p ∈ (refPatterns (schemaOrDefault e.schema schema) "Enums"
          e.name e.formattedName).dropLast,
        containsSub p.data line = false)
  ∧ (∀ line ∈ splitOnCharL '\n' t.data,
      ∀ e ∈ compositeNames,
        ∀ p ∈ (refPatterns schema "CompositeTypes" e.name e.formattedName).dropLast,
          containsSub p.data line = false)

theorem enum_fold_id (cfg : NamingConfig) (schema : String)
    (enumNames : List EnumNameEntry) (t : String)
    (h : ∀ line ∈ splitOnCharL '\n' t.data,
      ∀ e ∈ enumNames,
        ∀ p ∈ (refPatterns (schemaOrDefault e.schema schema) "Enums"
            e.name e.formattedName).dropLast,
          containsSub p.data line = false) :
    enumNames.foldl
      (fun acc e =>
        replaceTypeReferences acc (schemaOrDefault e.schema schema) "Enums"
          e.name e.formattedName) t = t := by
  induction enumNames with
  | nil => rfl
  | cons e rest ih =>
    rw [List.foldl_cons,
      replaceTypeReferences_id t _ _ _ _
        (fun line hline => h line hline e (List.mem_cons_self e rest))]
    exact ih (fun line hline x hx => h line hline x (List.mem_cons_of_mem _ hx))

theorem composite_fold_id (cfg : NamingConfig) (schema : String)
    (compositeNames : List CompositeNameEntry) (t : String)
    (h : ∀ line ∈ splitOnCharL '\n' t.data,
      ∀ e ∈ compositeNames,
        ∀ p ∈ (refPatterns schema "CompositeTypes" e.name e.formattedName).dropLast,
          containsSub p.data line = false) :
    compositeNames.foldl
      (fun acc e =>
        replaceTypeReferences acc schema "CompositeTypes" e.name e.formattedName) t
      = t := by
  induction compositeNames with
  | nil => rfl
  | cons e rest ih =>
    rw [List.foldl_cons,
      replaceTypeReferences_id t _ _ _ _
        (fun line hline => h line hline e (List.mem_cons_self e rest))]
    exact ih (fun line hline x hx => h line hline x (List.mem_cons_of_mem _ hx))

/-- **C3** (amended).  The rewrite pass is idempotent only conditionally: if,
on the once-rewritten text, the table-operation regex no longer matches and
no line contains a nested-path or legacy-spelling pattern of any collected
tuple (the formatted names themselves may well occur — replacing a formatted
name by itself is the identity), then a second application of the pass
returns the text unchanged.  Unconditionally this fails: only the FIRST
matching pattern of each line is replaced, so a line carrying a reference in
both quote styles keeps the second style after one pass and is changed again
by the next (see the counterexample). -/
theorem c3_conditional_idempotence (cfg : NamingConfig) (schema : String)
    (enumNames : List EnumNameEntry) (compositeNames : List CompositeNameEntry)
    (t : String)
    (h0 : hasTableOpRef (rewritePass cfg schema enumNames compositeNames t) = false)
    (h1 : noEarlierPatterns schema enumNames compositeNames
      (rewritePass cfg schema enumNames compositeNames t)) :
    rewritePass cfg schema enumNames compositeNames
        (rewritePass cfg schema enumNames compositeNames t)
      = rewritePass cfg schema enumNames compositeNames t := by
  obtain ⟨he, hc⟩ := h1
  conv_lhs => rw [rewritePass]
  rw [replaceTableOperationReferences_id cfg _ h0, enum_fold_id cfg schema enumNames _ he,
    composite_fold_id cfg schema compositeNames _ hc]

/-- Witness for C3: on a single-line text carrying only the double-quoted
reference, one pass rewrites it to the formatted name, the hypotheses of the
amended statement hold concretely, and a second pass is the identity. -/
theorem c3_conditional_idempotence_witness :
    hasTableOpRef (rewritePass defaultNamingConfig "A" [⟨"e", "AE", "A"⟩] []
        "export type X = Database[\"A\"][\"Enums\"][\"e\"]") = false
    ∧ rewritePass defaultNamingConfig "A" [⟨"e", "AE", "A"⟩] []
        (rewritePass defaultNamingConfig "A" [⟨"e", "AE", "A"⟩] []
          "export type X = Database[\"A\"][\"Enums\"][\"e\"]")
      = rewritePass defaultNamingConfig "A" [⟨"e", "AE", "A"⟩] []
          "export type X = Database[\"A\"][\"Enums\"][\"e\"]" :=
  ⟨by decide,
   c3_conditional_idempotence defaultNamingConfig "A" [⟨"e", "AE", "A"⟩] []
     "export type X = Database[\"A\"][\"Enums\"][\"e\"]" (by decide)
     ⟨by decide, by decide⟩⟩

/-! ### C4: toSchemaVariableName — suffix handling and idempotence -/

/-- **C4 counterexample.**  `toSchemaVariableName` is NOT idempotent on every
input: in default mode the degenerate no-alphanumeric branch returns
`"Schema"` for the empty string, and re-deriving from `"Schema"` lower-cases
it and appends the suffix again, giving `"schemaSchema"`. -/
theorem c4_idempotence_counterexample :
    toSchemaVariableName (toSchemaVariableName "" false) false
      ≠ toSchemaVariableName "" false := by
  decide

theorem sEndsWith_mk_append (x : List Char) (suf : String) :
    sEndsWith (⟨x⟩ ++ suf) suf = true := by
  rw [sEndsWith, String.data_append]
  exact List.isSuffixOf_iff_suffix.mpr (List.suffix_append x suf.data)

/-! Properties of `alnumRuns`. -/

theorem alnumRuns_singleton (c : Char) :
    alnumRuns [c] = if isAlnumCh c then [[c]] else [] := rfl

theorem alnumRuns_cons_cons (c d : Char) (t : List Char) :
    alnumRuns (c :: d :: t)
      = if isAlnumCh c then
          (if isAlnumCh d then
            match alnumRuns (d :: t) with
            | r :: rs2 => (c :: r) :: rs2
            | [] => [[c]]
          else [c] :: alnumRuns (d :: t))
        else alnumRuns (d :: t) := rfl

theorem alnumRuns_props : ∀ s : List Char, ∀ r ∈ alnumRuns s,
    r ≠ [] ∧ ∀ c ∈ r, isAlnumCh c = true
  | [] => by simp [alnumRuns]
  | [c] => by
    intro r hr
    rw [alnumRuns_singleton] at hr
    by_cases hc : isAlnumCh c
    · rw [if_pos hc] at hr
      simp only [List.mem_singleton] at hr
      subst hr
      refine ⟨by simp, ?_⟩
      intro x hx
      simp only [List.mem_singleton] at hx
      subst hx
      exact hc
    · rw [if_neg hc] at hr
      simp at hr
  | c :: d :: t => by
    intro r hr
    have ih := alnumRuns_props (d :: t)
    rw [alnumRuns_cons_cons] at hr
    by_cases hc : isAlnumCh c
    · rw [if_pos hc] at hr
      by_cases hd : isAlnumCh d
      · rw [if_pos hd] at hr
        cases hruns : alnumRuns (d :: t) with
        | nil =>
          rw [hruns] at hr
          simp only [List.mem_singleton] at hr
          subst hr
          refine ⟨by simp, ?_⟩
          intro x hx
          simp only [List.mem_singleton] at hx
          subst hx
          exact hc
        | cons r0 rs =>
          rw [hruns] at hr
          simp only [List.mem_cons] at hr
          rcases hr with hr | hr
          · subst hr
            have h0 := ih r0 (by rw [hruns]; exact List.mem_cons_self _ _)
            refine ⟨by simp, ?_⟩
            intro x hx
            simp only [List.mem_cons] at hx
            rcases hx with hx | hx
            · subst hx
              exact hc
            · exact h0.2 x hx
          · exact ih r (by rw [hruns]; exact List.mem_cons_of_mem _ hr)
      · rw [if_neg hd] at hr
        simp only [List.mem_cons] at hr
        rcases hr with hr | hr
        · subst hr
          refine ⟨by simp, ?_⟩
          intro x hx
          simp only [List.mem_singleton] at hx
          subst hx
          exact hc
        · exact ih r hr
    · rw [if_neg hc] at hr
      exact ih r hr

theorem alnumRuns_of_all_alnum : ∀ s : List Char, s ≠ [] →
    (∀ c ∈ s, isAlnumCh c = true) → alnumRuns s = [s]
  | [] => by intro h; exact absurd rfl h
  | [c] => by
    intro _ hall
    rw [alnumRuns_singleton, if_pos (hall c (List.mem_cons_self c []))]
  | c :: d :: t => by
    intro _ hall
    have hc : isAlnumCh c = true := hall c (List.mem_cons_self _ _)
    have hd : isAlnumCh d = true :=
      hall d (List.mem_cons_of_mem _ (List.mem_cons_self _ _))
    have hruns : alnumRuns (d :: t) = [d :: t] :=
      alnumRuns_of_all_alnum (d :: t) (by simp)
        (fun x hx => hall x (List.mem_cons_of_mem _ hx))
    rw [alnumRuns_cons_cons, if_pos hc, if_pos hd, hruns]

theorem alnumRuns_ne_nil : ∀ s : List Char, s.any isAlnumCh = true →
    alnumRuns s ≠ []
  | [] => by simp
  | [c] => by
    intro hany
    rw [alnumRuns_singleton]
    have hc : isAlnumCh c = true := by simpa using hany
    rw [if_pos hc]
    simp
  | c :: d :: t => by
    intro hany
    rw [alnumRuns_cons_cons]
    by_cases hc : isAlnumCh c
    · rw [if_pos hc]
      by_cases hd : isAlnumCh d
      · rw [if_pos hd]
        cases alnumRuns (d :: t) <;> simp
      · rw [if_neg hd]
        simp
    · rw [if_neg hc]
      apply alnumRuns_ne_nil (d :: t)
      rw [List.any_cons] at hany
      simpa [(by simpa using hc : isAlnumCh c = false)] using hany


theorem sEndsWith_append (s suf : String) : sEndsWith (s ++ suf) suf = true := by
  rw [sEndsWith, String.data_append]
  exact List.isSuffixOf_iff_suffix.mpr (List.suffix_append s.data suf.data)

/-- The default-mode branch structure of `toSchemaVariableName`, unfolded. -/
theorem tSVN_false_eq (s : String) :
    toSchemaVariableName s false
      = (if (alnumRuns s.data).isEmpty then
           (if sEndsWith s "Schema" then s else s ++ "Schema")
         else
           if (((alnumRuns s.data).map capFirstOnly).flatten).isEmpty then
             (if sEndsWith s "Schema" then s else s ++ "Schema")
           else
             if List.isSuffixOf "Schema".data
                 (lowerFirst (((alnumRuns s.data).map capFirstOnly).flatten)) then
               ⟨lowerFirst (((alnumRuns s.data).map capFirstOnly).flatten)⟩
             else
               (⟨lowerFirst (((alnumRuns s.data).map capFirstOnly).flatten)⟩ : String)
                 ++ "Schema") := rfl

/-- The preserve-mode branch structure of `toSchemaVariableName`, unfolded. -/
theorem tSVN_true_eq (s : String) :
    toSchemaVariableName s true
      = (if (normalizeU s.data).isEmpty then "schema"
         else if List.isSuffixOf "schema".data (normalizeU s.data) then
           ⟨normalizeU s.data⟩
         else (⟨normalizeU s.data⟩ : String) ++ "_schema") := rfl

theorem mem_flatten_capFirstOnly {parts : List (List Char)}
    (h : ∀ r ∈ parts, ∀ c ∈ r, isAlnumCh c = true) :
    ∀ c ∈ (parts.map capFirstOnly).flatten, isAlnumCh c = true := by
  intro c hc
  rw [List.mem_flatten] at hc
  obtain ⟨l, hl, hcl⟩ := hc
  rw [List.mem_map] at hl
  obtain ⟨r, hr, rfl⟩ := hl
  cases r with
  | nil => simp [capFirstOnly] at hcl
  | cons x rest =>
    rw [capFirstOnly] at hcl
    simp only [List.mem_cons] at hcl
    rcases hcl with hcl | hcl
    · subst hcl
      rw [isAlnumCh_toUpper]
      exact h _ hr x (List.mem_cons_self _ _)
    · exact h _ hr c (List.mem_cons_of_mem _ hcl)

/-- Any string that is non-empty, consists of alphanumeric characters, starts
with a lower-cased character, and already ends with `Schema` is a fixed point
of default-mode `toSchemaVariableName`. -/
theorem tSVN_default_fixed (r : String)
    (hall : ∀ c ∈ r.data, isAlnumCh c = true)
    (hhead : ∃ y rest, r.data = Char.toLower y :: rest)
    (hsuf : List.isSuffixOf "Schema".data r.data = true) :
    toSchemaVariableName r false = r := by
  obtain ⟨y, rest, hr⟩ := hhead
  have hne : r.data ≠ [] := by rw [hr]; simp
  have hruns : alnumRuns r.data = [r.data] := alnumRuns_of_all_alnum _ hne hall
  rw [tSVN_false_eq, hruns]
  have hpas : (([r.data].map capFirstOnly)).flatten = Char.toUpper (Char.toLower y) :: rest := by
    rw [List.map_singleton, List.flatten_singleton, hr, capFirstOnly]
  rw [hpas]
  have hcam : lowerFirst (Char.toUpper (Char.toLower y) :: rest) = r.data := by
    rw [lowerFirst, toLower_toUpper_toLower, ← hr]
  rw [if_neg (by simp), if_neg (by simp), hcam, if_pos hsuf]

/-- Default-mode idempotence for inputs containing at least one alphanumeric
character. -/
theorem tSVN_default_idem (s : String) (h : s.data.any isAlnumCh = true) :
    toSchemaVariableName (toSchemaVariableName s false) false
      = toSchemaVariableName s false := by
  have hne := alnumRuns_ne_nil s.data h
  obtain ⟨r0, parts', hps⟩ : ∃ r0 parts', alnumRuns s.data = r0 :: parts' := by
    cases hr : alnumRuns s.data with
    | nil => exact absurd hr hne
    | cons a b => exact ⟨a, b, rfl⟩
  have hr0 := alnumRuns_props s.data r0 (by rw [hps]; exact List.mem_cons_self _ _)
  obtain ⟨x, r0', hx⟩ : ∃ x r0', r0 = x :: r0' := by
    cases hrr : r0 with
    | nil => exact absurd hrr hr0.1
    | cons a b => exact ⟨a, b, rfl⟩
  have hpascal : ((alnumRuns s.data).map capFirstOnly).flatten
      = Char.toUpper x :: (r0' ++ (parts'.map capFirstOnly).flatten) := by
    rw [hps, List.map_cons, List.flatten_cons, hx, capFirstOnly]
    rfl
  have hallcam : ∀ c ∈ lowerFirst (((alnumRuns s.data).map capFirstOnly).flatten),
      isAlnumCh c = true := by
    have hallpas := mem_flatten_capFirstOnly
      (fun r hr => (alnumRuns_props s.data r hr).2)
    intro c hc
    rw [hpascal] at hc
    rw [lowerFirst] at hc
    simp only [List.mem_cons] at hc
    rcases hc with hc | hc
    · subst hc
      rw [isAlnumCh_toLower, isAlnumCh_toUpper]
      have := hallpas (Char.toUpper x) (by rw [hpascal]; exact List.mem_cons_self _ _)
      rwa [isAlnumCh_toUpper] at this
    · exact hallpas c (by rw [hpascal]; exact List.mem_cons_of_mem _ hc)
  have hcamhead : lowerFirst (((alnumRuns s.data).map capFirstOnly).flatten)
      = Char.toLower (Char.toUpper x) :: (r0' ++ (parts'.map capFirstOnly).flatten) := by
    rw [hpascal, lowerFirst]
  rw [tSVN_false_eq s]
  rw [if_neg (by rw [hps]; simp), if_neg (by rw [hpascal]; simp)]
  by_cases hsuf : List.isSuffixOf "Schema".data
      (lowerFirst (((alnumRuns s.data).map capFirstOnly).flatten))
  · rw [if_pos hsuf]
    apply tSVN_default_fixed
    · exact hallcam
    · exact ⟨Char.toUpper x, _, hcamhead⟩
    · exact hsuf
  · rw [if_neg hsuf]
    apply tSVN_default_fixed
    · intro c hc
      rw [String.data_append] at hc
      rw [List.mem_append] at hc
      rcases hc with hc | hc
      · exact hallcam c hc
      · revert hc
        revert c
        decide
    · refine ⟨Char.toUpper x, ?_, ?_⟩
      · exact (r0' ++ (parts'.map capFirstOnly).flatten) ++ "Schema".data
      · rw [String.data_append]
        show (lowerFirst (((alnumRuns s.data).map capFirstOnly).flatten))
            ++ "Schema".data = _
        rw [hcamhead]
        rfl
    · rw [String.data_append]
      exact List.isSuffixOf_iff_suffix.mpr (List.suffix_append _ _)

/-- No two adjacent non-alphanumeric characters. -/
def noAdjNonAlnum : List Char → Bool
  | [] => true
  | [_] => true
  | c :: d :: rest => (isAlnumCh c || isAlnumCh d) && noAdjNonAlnum (d :: rest)

theorem toLower_underscore : Char.toLower '_' = '_' :=
  toLower_of_not_upper (by decide)

theorem toLower_ne_underscore {c : Char} (h : c ≠ '_') : Char.toLower c ≠ '_' := by
  intro hc
  apply h
  by_cases hu : 65 ≤ c.toNat ∧ c.toNat ≤ 90
  · exfalso
    have := congrArg Char.toNat hc
    rw [toNat_toLower, if_pos hu] at this
    have h95 : ('_' : Char).toNat = 95 := rfl
    omega
  · have : c.toLower = c := by
      apply char_ext_toNat
      rw [toNat_toLower, if_neg hu]
    rwa [this] at hc

theorem insertU_eq_self : ∀ l : List Char, (∀ c ∈ l, isUpperCh c = false) →
    insertU l = l
  | [] => by intro _; rfl
  | [c] => by intro _; rfl
  | c1 :: c2 :: rest => by
    intro h
    rw [insertU]
    have h2 : isUpperCh c2 = false :=
      h c2 (List.mem_cons_of_mem _ (List.mem_cons_self _ _))
    rw [if_neg (by simp [h2])]
    rw [insertU_eq_self (c2 :: rest) (fun x hx => h x (List.mem_cons_of_mem _ hx))]

theorem runsToU_singleton (c : Char) :
    runsToU [c] = if isAlnumCh c then [c] else ['_'] := rfl

theorem runsToU_cons_cons (c d : Char) (t : List Char) :
    runsToU (c :: d :: t)
      = if isAlnumCh c then c :: runsToU (d :: t)
        else if isAlnumCh d then '_' :: runsToU (d :: t) else runsToU (d :: t) := rfl

theorem runsToU_underOnly : ∀ l : List Char, ∀ c ∈ runsToU l,
    isAlnumCh c = true ∨ c = '_'
  | [] => by simp [runsToU]
  | [c] => by
    intro x hx
    rw [runsToU_singleton] at hx
    by_cases hc : isAlnumCh c
    · rw [if_pos hc] at hx
      simp only [List.mem_singleton] at hx
      subst hx
      exact Or.inl hc
    · rw [if_neg hc] at hx
      simp only [List.mem_singleton] at hx
      subst hx
      exact Or.inr rfl
  | c :: d :: t => by
    intro x hx
    rw [runsToU_cons_cons] at hx
    by_cases hc : isAlnumCh c
    · rw [if_pos hc] at hx
      simp only [List.mem_cons] at hx
      rcases hx with hx | hx
      · subst hx; exact Or.inl hc
      · exact runsToU_underOnly (d :: t) x hx
    · rw [if_neg hc] at hx
      by_cases hd : isAlnumCh d
      · rw [if_pos hd] at hx
        simp only [List.mem_cons] at hx
        rcases hx with hx | hx
        · subst hx; exact Or.inr rfl
        · exact runsToU_underOnly (d :: t) x hx
      · rw [if_neg hd] at hx
        exact runsToU_underOnly (d :: t) x hx

theorem runsToU_cons_alnum {d : Char} (t : List Char) (hd : isAlnumCh d = true) :
    runsToU (d :: t) = d :: runsToU t := by
  cases t with
  | nil => rw [runsToU_singleton, if_pos hd]; rfl
  | cons e t2 => rw [runsToU_cons_cons, if_pos hd]

theorem noAdj_cons_of_alnum {c : Char} {l : List Char} (hc : isAlnumCh c = true)
    (hl : noAdjNonAlnum l = true) : noAdjNonAlnum (c :: l) = true := by
  cases l with
  | nil => rfl
  | cons d t =>
    rw [noAdjNonAlnum]
    simp [hc, hl]

theorem runsToU_noAdj : ∀ l : List Char, noAdjNonAlnum (runsToU l) = true
  | [] => rfl
  | [c] => by
    rw [runsToU_singleton]
    by_cases hc : isAlnumCh c
    · rw [if_pos hc]; rfl
    · rw [if_neg hc]; rfl
  | c :: d :: t => by
    rw [runsToU_cons_cons]
    by_cases hc : isAlnumCh c
    · rw [if_pos hc]
      exact noAdj_cons_of_alnum hc (runsToU_noAdj (d :: t))
    · rw [if_neg hc]
      by_cases hd : isAlnumCh d
      · rw [if_pos hd]
        rw [runsToU_cons_alnum t hd]
        rw [noAdjNonAlnum]
        simp only [hd, Bool.or_true, Bool.true_and]
        have := runsToU_noAdj (d :: t)
        rwa [runsToU_cons_alnum t hd] at this
      · rw [if_neg hd]
        exact runsToU_noAdj (d :: t)

theorem collapseU_eq_self : ∀ l : List Char, noAdjNonAlnum l = true →
    collapseU l = l
  | [] => by intro _; rfl
  | [c] => by intro _; rfl
  | c :: d :: rest => by
    intro h
    rw [noAdjNonAlnum, Bool.and_eq_true] at h
    obtain ⟨hpair, htail⟩ := h
    rw [collapseU]
    have hnd : ¬ (c = '_' ∧ d = '_') := by
      rintro ⟨rfl, rfl⟩
      exact absurd hpair (by decide)
    rw [if_neg (by simpa using hnd)]
    rw [collapseU_eq_self (d :: rest) htail]

theorem dropWhile_head?_false (p : Char → Bool) :
    ∀ l : List Char, ∀ c, (l.dropWhile p).head? = some c → p c = false
  | [] => by intro c h; simp at h
  | x :: t => by
    intro c h
    rw [List.dropWhile_cons] at h
    by_cases hx : p x
    · rw [if_pos hx] at h
      exact dropWhile_head?_false p t c h
    · rw [if_neg hx] at h
      simp only [List.head?_cons, Option.some.injEq] at h
      subst h
      simpa using hx

theorem dropWhile_eq_self_of_head (p : Char → Bool) (l : List Char)
    (h : ∀ c, l.head? = some c → p c = false) : l.dropWhile p = l := by
  cases l with
  | nil => rfl
  | cons c t =>
    rw [List.dropWhile_cons, if_neg (by simp [h c rfl])]

theorem trimU_eq_self (l : List Char)
    (h1 : ∀ c, l.head? = some c → c ≠ '_')
    (h2 : ∀ c, l.getLast? = some c → c ≠ '_') : trimU l = l := by
  rw [trimU]
  rw [dropWhile_eq_self_of_head _ l (by
    intro c hc
    simpa using h1 c hc)]
  rw [dropWhile_eq_self_of_head _ l.reverse (by
    intro c hc
    rw [List.head?_reverse] at hc
    simpa using h2 c hc)]
  exact List.reverse_reverse l

theorem map_toLower_eq_self (l : List Char) (h : ∀ c ∈ l, isUpperCh c = false) :
    l.map Char.toLower = l := by
  rw [List.map_congr_left (fun c hc => toLower_of_not_upper (h c hc))]
  exact List.map_id _

theorem noAdj_append_left : ∀ a b : List Char,
    noAdjNonAlnum (a ++ b) = true → noAdjNonAlnum a = true
  | [], _, _ => rfl
  | [c], b, h => rfl
  | c :: d :: rest, b, h => by
    rw [List.cons_append, List.cons_append] at h
    rw [noAdjNonAlnum] at h
    rw [Bool.and_eq_true] at h
    rw [noAdjNonAlnum, Bool.and_eq_true]
    exact ⟨h.1, noAdj_append_left (d :: rest) b (by rw [List.cons_append]; exact h.2)⟩

theorem noAdj_append_right : ∀ a b : List Char,
    noAdjNonAlnum (a ++ b) = true → noAdjNonAlnum b = true
  | [], b, h => h
  | [c], b, h => by
    cases b with
    | nil => rfl
    | cons x t =>
      rw [List.singleton_append, noAdjNonAlnum, Bool.and_eq_true] at h
      exact h.2
  | c :: d :: rest, b, h => by
    rw [List.cons_append, List.cons_append, noAdjNonAlnum, Bool.and_eq_true] at h
    exact noAdj_append_right (d :: rest) b (by rw [List.cons_append]; exact h.2)

theorem noAdj_of_prefix {a l : List Char} (h : a <+: l)
    (hl : noAdjNonAlnum l = true) : noAdjNonAlnum a = true := by
  obtain ⟨t, rfl⟩ := h
  exact noAdj_append_left a t hl

theorem noAdj_of_suffix {a l : List Char} (h : a <:+ l)
    (hl : noAdjNonAlnum l = true) : noAdjNonAlnum a = true := by
  obtain ⟨t, rfl⟩ := h
  exact noAdj_append_right t a hl

theorem noAdj_map_toLower : ∀ l : List Char, noAdjNonAlnum l = true →
    noAdjNonAlnum (l.map Char.toLower) = true
  | [] => by intro _; rfl
  | [c] => by intro _; rfl
  | c :: d :: rest => by
    intro h
    rw [noAdjNonAlnum, Bool.and_eq_true] at h
    rw [List.map_cons, List.map_cons, noAdjNonAlnum, Bool.and_eq_true]
    constructor
    · rw [isAlnumCh_toLower, isAlnumCh_toLower]
      exact h.1
    · rw [← List.map_cons]
      exact noAdj_map_toLower (d :: rest) h.2

theorem noAdj_append (a b : List Char)
    (ha : noAdjNonAlnum a = true) (hb : noAdjNonAlnum b = true)
    (hj : ∀ ca cb, a.getLast? = some ca → b.head? = some cb →
      (isAlnumCh ca || isAlnumCh cb) = true) :
    noAdjNonAlnum (a ++ b) = true := by
  induction a with
  | nil => simpa using hb
  | cons c rest ih =>
    cases rest with
    | nil =>
      cases b with
      | nil => simpa using ha
      | cons x t =>
        rw [List.singleton_append, noAdjNonAlnum, Bool.and_eq_true]
        exact ⟨hj c x rfl rfl, hb⟩
    | cons d rest2 =>
      rw [noAdjNonAlnum, Bool.and_eq_true] at ha
      rw [List.cons_append, List.cons_append, noAdjNonAlnum, Bool.and_eq_true]
      refine ⟨ha.1, ?_⟩
      rw [← List.cons_append]
      exact ih ha.2 (by
        intro ca cb hca hcb
        apply hj ca cb ?_ hcb
        rw [List.getLast?_cons_cons]
        exact hca)

theorem collapseU_subset : ∀ l : List Char, ∀ c ∈ collapseU l, c ∈ l
  | [] => by simp [collapseU]
  | [x] => by
    intro c hc
    rw [collapseU] at hc
    exact hc
  | x :: y :: rest => by
    intro c hc
    rw [collapseU] at hc
    by_cases hxy : x = '_' ∧ y = '_'
    · rw [if_pos (by simpa using hxy)] at hc
      exact List.mem_cons_of_mem _ (collapseU_subset (y :: rest) c hc)
    · rw [if_neg (by simpa using hxy)] at hc
      simp only [List.mem_cons] at hc ⊢
      rcases hc with hc | hc
      · exact Or.inl hc
      · rcases (by simpa using collapseU_subset (y :: rest) c hc : c = y ∨ c ∈ rest)
          with hc2 | hc2
        · exact Or.inr (Or.inl hc2)
        · exact Or.inr (Or.inr hc2)

theorem trimU_subset (l : List Char) : ∀ c ∈ trimU l, c ∈ l := by
  intro c hc
  rw [trimU] at hc
  rw [List.mem_reverse] at hc
  have h1 := (List.dropWhile_sublist (fun x => x = '_')
    (l := (l.dropWhile (fun x => x = '_')).reverse)).mem hc
  rw [List.mem_reverse] at h1
  exact (List.dropWhile_sublist (fun x => x = '_')).mem h1

/-- The normalization pipeline's output invariants. -/
theorem normalizeU_underOnly (x : List Char) :
    ∀ c ∈ normalizeU x, isAlnumCh c = true ∨ c = '_' := by
  intro c hc
  rw [normalizeU, List.mem_map] at hc
  obtain ⟨c0, hc0, rfl⟩ := hc
  have h1 := trimU_subset _ _ hc0
  have h2 := collapseU_subset _ _ h1
  rcases runsToU_underOnly _ _ h2 with h3 | h3
  · left
    rwa [isAlnumCh_toLower]
  · right
    rw [h3]
    exact toLower_underscore

theorem normalizeU_noUpper (x : List Char) :
    ∀ c ∈ normalizeU x, isUpperCh c = false := by
  intro c hc
  rw [normalizeU, List.mem_map] at hc
  obtain ⟨c0, _, rfl⟩ := hc
  exact isUpperCh_toLower c0

theorem normalizeU_noAdj (x : List Char) :
    noAdjNonAlnum (normalizeU x) = true := by
  rw [normalizeU]
  apply noAdj_map_toLower
  have hr := runsToU_noAdj (insertU x)
  rw [collapseU_eq_self _ hr]
  have hstep1 := noAdj_of_suffix
    (List.dropWhile_suffix (l := runsToU (insertU x)) (fun c => decide (c = '_'))) hr
  rw [trimU]
  apply noAdj_of_prefix
    (l := (runsToU (insertU x)).dropWhile (fun c => decide (c = '_')))
  · conv_rhs => rw [← List.reverse_reverse
      ((runsToU (insertU x)).dropWhile (fun c => decide (c = '_')))]
    exact List.reverse_prefix.mpr (List.dropWhile_suffix _)
  · exact hstep1

theorem trimU_head (l : List Char) :
    ∀ c, (trimU l).head? = some c → c ≠ '_' := by
  intro c hc
  rw [trimU, List.head?_reverse] at hc
  have hXne : (l.dropWhile (fun y => decide (y = '_'))).reverse.dropWhile
      (fun y => decide (y = '_')) ≠ [] := by
    intro h
    rw [h] at hc
    simp at hc
  obtain ⟨pre, hpre⟩ := List.dropWhile_suffix
    (l := (l.dropWhile (fun y => decide (y = '_'))).reverse) (fun y => decide (y = '_'))
  have h1 : ((l.dropWhile (fun y => decide (y = '_'))).reverse).getLast? = some c := by
    rw [← hpre, List.getLast?_append, hc]
    rfl
  rw [List.getLast?_reverse] at h1
  have h2 := dropWhile_head?_false (fun y => decide (y = '_')) l c h1
  simpa using h2

theorem trimU_last (l : List Char) :
    ∀ c, (trimU l).getLast? = some c → c ≠ '_' := by
  intro c hc
  rw [trimU, List.getLast?_reverse] at hc
  have h2 := dropWhile_head?_false (fun y => decide (y = '_'))
    (l.dropWhile (fun y => decide (y = '_'))).reverse c hc
  simpa using h2

theorem normalizeU_head (x : List Char) :
    ∀ c, (normalizeU x).head? = some c → c ≠ '_' := by
  intro c hc
  rw [normalizeU, List.head?_map] at hc
  cases ht : (trimU (collapseU (runsToU (insertU x)))).head? with
  | none =>
    rw [ht] at hc
    simp at hc
  | some c0 =>
    rw [ht] at hc
    simp only [Option.map_some', Option.some.injEq] at hc
    subst hc
    exact toLower_ne_underscore (trimU_head _ c0 ht)

theorem normalizeU_last (x : List Char) :
    ∀ c, (normalizeU x).getLast? = some c → c ≠ '_' := by
  intro c hc
  rw [normalizeU, List.getLast?_map] at hc
  cases ht : (trimU (collapseU (runsToU (insertU x)))).getLast? with
  | none =>
    rw [ht] at hc
    simp at hc
  | some c0 =>
    rw [ht] at hc
    simp only [Option.map_some', Option.some.injEq] at hc
    subst hc
    exact toLower_ne_underscore (trimU_last _ c0 ht)

theorem runsToU_eq_self : ∀ l : List Char,
    (∀ c ∈ l, isAlnumCh c = true ∨ c = '_') → noAdjNonAlnum l = true →
    runsToU l = l
  | [] => by intro _ _; rfl
  | [c] => by
    intro hu _
    rw [runsToU_singleton]
    rcases hu c (List.mem_singleton.mpr rfl) with hc | hc
    · rw [if_pos hc]
    · subst hc
      rw [if_neg (by decide)]
  | c :: d :: t => by
    intro hu ha
    rw [noAdjNonAlnum, Bool.and_eq_true] at ha
    rw [runsToU_cons_cons]
    have ihtail := runsToU_eq_self (d :: t)
      (fun x hx => hu x (List.mem_cons_of_mem _ hx)) ha.2
    by_cases hc : isAlnumCh c = true
    · rw [if_pos hc, ihtail]
    · have hcu : c = '_' := by
        rcases hu c (List.mem_cons_self _ _) with h | h
        · exact absurd h hc
        · exact h
      have hc' : isAlnumCh c = false := by
        cases h : isAlnumCh c
        · rfl
        · exact absurd h hc
      have hd : isAlnumCh d = true := by
        have hp := ha.1
        rw [hc', Bool.false_or] at hp
        exact hp
      rw [if_neg hc, if_pos hd, ihtail, hcu]

/-- Any list satisfying all output invariants of `normalizeU` is a fixed point
of the whole pipeline. -/
theorem normalizeU_fixed (l : List Char)
    (hnu : ∀ c ∈ l, isUpperCh c = false)
    (huo : ∀ c ∈ l, isAlnumCh c = true ∨ c = '_')
    (hna : noAdjNonAlnum l = true)
    (hh : ∀ c, l.head? = some c → c ≠ '_')
    (hl : ∀ c, l.getLast? = some c → c ≠ '_') :
    normalizeU l = l := by
  rw [normalizeU, insertU_eq_self l hnu, runsToU_eq_self l huo hna,
    collapseU_eq_self l hna, trimU_eq_self l hh hl,
    map_toLower_eq_self l hnu]

theorem normalizeU_idem (x : List Char) :
    normalizeU (normalizeU x) = normalizeU x :=
  normalizeU_fixed _ (normalizeU_noUpper x) (normalizeU_underOnly x)
    (normalizeU_noAdj x) (normalizeU_head x) (normalizeU_last x)

theorem uschema_chars :
    ∀ c ∈ "_schema".data,
      isUpperCh c = false ∧ (isAlnumCh c = true ∨ c = '_') := by
  decide

theorem uschema_noAdj : noAdjNonAlnum "_schema".data = true := by decide

theorem mem_of_getLast?_eq {l : List Char} {a : Char}
    (h : l.getLast? = some a) : a ∈ l := by
  rw [← List.head?_reverse] at h
  cases hl : l.reverse with
  | nil => rw [hl] at h; simp at h
  | cons x t =>
    rw [hl] at h
    simp only [List.head?_cons, Option.some.injEq] at h
    have hx : x ∈ l.reverse := by rw [hl]; exact List.mem_cons_self _ _
    rw [← h]
    rwa [List.mem_reverse] at hx

/-- Appending `"_schema"` to a `normalizeU` output yields another fixed point
of `normalizeU`. -/
theorem normalizeU_fixed_uschema (s : List Char)
    (hne : normalizeU s ≠ []) :
    normalizeU (normalizeU s ++ "_schema".data) = normalizeU s ++ "_schema".data := by
  apply normalizeU_fixed
  · intro c hc
    rcases List.mem_append.mp hc with hc | hc
    · exact normalizeU_noUpper s c hc
    · exact (uschema_chars c hc).1
  · intro c hc
    rcases List.mem_append.mp hc with hc | hc
    · exact normalizeU_underOnly s c hc
    · exact (uschema_chars c hc).2
  · apply noAdj_append _ _ (normalizeU_noAdj s) uschema_noAdj
    intro ca cb hca hcb
    have hlast := normalizeU_last s ca hca
    rcases normalizeU_underOnly s ca (mem_of_getLast?_eq hca) with h | h
    · rw [h, Bool.true_or]
    · exact absurd h hlast
  · intro c hc
    rw [List.head?_append] at hc
    cases hh : (normalizeU s).head? with
    | none =>
      exact absurd (List.head?_eq_none_iff.mp hh) hne
    | some c0 =>
      rw [hh] at hc
      have hc2 : (some c0 : Option Char) = some c := hc
      have hcc : c0 = c := by injection hc2
      subst hcc
      exact normalizeU_head s c0 hh
  · intro c hc
    rw [List.getLast?_append] at hc
    have hc2 : (some 'a' : Option Char) = some c := hc
    have hcc : 'a' = c := by injection hc2
    subst hcc
    decide

/-- Preserve-separators mode is idempotent on every input. -/
theorem tSVN_preserve_idem (s : String) :
    toSchemaVariableName (toSchemaVariableName s true) true
      = toSchemaVariableName s true := by
  by_cases h0 : (normalizeU s.data).isEmpty
  · have h1 : toSchemaVariableName s true = "schema" := by
      rw [tSVN_true_eq, if_pos h0]
    rw [h1]
    decide
  · have hne : normalizeU s.data ≠ [] := by
      intro h
      rw [h] at h0
      exact h0 rfl
    by_cases hsuf : List.isSuffixOf "schema".data (normalizeU s.data)
    · have h1 : toSchemaVariableName s true = ⟨normalizeU s.data⟩ := by
        rw [tSVN_true_eq, if_neg h0, if_pos hsuf]
      rw [h1, tSVN_true_eq]
      have hdat : (⟨normalizeU s.data⟩ : String).data = normalizeU s.data := rfl
      rw [hdat, normalizeU_idem, if_neg h0, if_pos hsuf]
    · have h1 : toSchemaVariableName s true
          = (⟨normalizeU s.data⟩ : String) ++ "_schema" := by
        rw [tSVN_true_eq, if_neg h0, if_neg hsuf]
      rw [h1, tSVN_true_eq]
      have hdat : ((⟨normalizeU s.data⟩ : String) ++ "_schema").data
          = normalizeU s.data ++ "_schema".data := String.data_append _ _
      rw [hdat, normalizeU_fixed_uschema s.data hne]
      have hemp : (normalizeU s.data ++ "_schema".data).isEmpty = false := by
        cases h : normalizeU s.data ++ "_schema".data with
        | nil => exact absurd (List.append_eq_nil.mp h).1 hne
        | cons a t => rfl
      rw [if_neg (by rw [hemp]; exact Bool.false_ne_true)]
      have hsuf2 : List.isSuffixOf "schema".data
          (normalizeU s.data ++ "_schema".data) = true := by
        apply List.isSuffixOf_iff_suffix.mpr
        exact (List.isSuffixOf_iff_suffix.mp (by decide :
          List.isSuffixOf "schema".data "_schema".data = true)).trans
          (List.suffix_append _ _)
      rw [if_pos hsuf2]
      exact String.ext hdat.symm

/-- Default mode always produces a name ending in `Schema`. -/
theorem tSVN_default_endsWith (s : String) :
    sEndsWith (toSchemaVariableName s false) "Schema" = true := by
  rw [tSVN_false_eq]
  by_cases h0 : (alnumRuns s.data).isEmpty
  · rw [if_pos h0]
    by_cases hs : sEndsWith s "Schema"
    · rw [if_pos hs]; exact hs
    · rw [if_neg hs]; exact sEndsWith_append s "Schema"
  · rw [if_neg h0]
    by_cases h1 : (((alnumRuns s.data).map capFirstOnly).flatten).isEmpty
    · rw [if_pos h1]
      by_cases hs : sEndsWith s "Schema"
      · rw [if_pos hs]; exact hs
      · rw [if_neg hs]; exact sEndsWith_append s "Schema"
    · rw [if_neg h1]
      by_cases hsuf : List.isSuffixOf "Schema".data
          (lowerFirst (((alnumRuns s.data).map capFirstOnly).flatten))
      · rw [if_pos hsuf]
        exact hsuf
      · rw [if_neg hsuf]
        exact sEndsWith_mk_append _ "Schema"

/-- Preserve mode always produces a name ending in `schema`. -/
theorem tSVN_preserve_endsWith (s : String) :
    sEndsWith (toSchemaVariableName s true) "schema" = true := by
  rw [tSVN_true_eq]
  by_cases h0 : (normalizeU s.data).isEmpty
  · rw [if_pos h0]
    decide
  · rw [if_neg h0]
    by_cases hsuf : List.isSuffixOf "schema".data (normalizeU s.data)
    · rw [if_pos hsuf]
      exact hsuf
    · rw [if_neg hsuf]
      rw [sEndsWith, String.data_append]
      apply List.isSuffixOf_iff_suffix.mpr
      exact (List.isSuffixOf_iff_suffix.mp (by decide :
        List.isSuffixOf "schema".data "_schema".data = true)).trans
        (List.suffix_append _ _)

/-- **C4 (amended).**  Suffix handling and idempotence of
`toSchemaVariableName` (`naming-config.ts` lines 198-237).  Preserve-separators
mode is idempotent on every input and its result always ends with the suffix
`schema`; default mode always ends with the suffix `Schema` and is idempotent
on every input containing at least one alphanumeric character.  (Unrestricted
default-mode idempotence is FALSE: see the counterexample on the empty string,
whose first derivation is `"Schema"` and second is `"schemaSchema"`; and a
result may end with more than one occurrence of the suffix when the input
already carried one, so only ends-with — not exactly-once — holds.) -/
theorem c4_suffix_and_idempotence :
    (∀ s : String,
      toSchemaVariableName (toSchemaVariableName s true) true
        = toSchemaVariableName s true)
    ∧ (∀ s : String, s.data.any isAlnumCh = true →
        toSchemaVariableName (toSchemaVariableName s false) false
          = toSchemaVariableName s false)
    ∧ (∀ s : String, sEndsWith (toSchemaVariableName s false) "Schema" = true)
    ∧ (∀ s : String, sEndsWith (toSchemaVariableName s true) "schema" = true) :=
  ⟨tSVN_preserve_idem, tSVN_default_idem, tSVN_default_endsWith,
    tSVN_preserve_endsWith⟩

/-- Witness for C4 at the concrete input `"my_table"`. -/
theorem c4_suffix_and_idempotence_witness :
    ("my_table".data.any isAlnumCh = true)
    ∧ toSchemaVariableName (toSchemaVariableName "my_table" false) false
        = toSchemaVariableName "my_table" false
    ∧ toSchemaVariableName (toSchemaVariableName "my_table" true) true
        = toSchemaVariableName "my_table" true
    ∧ sEndsWith (toSchemaVariableName "my_table" false) "Schema" = true
    ∧ sEndsWith (toSchemaVariableName "my_table" true) "schema" = true :=
  ⟨by decide,
   c4_suffix_and_idempotence.2.1 "my_table" (by decide),
   c4_suffix_and_idempotence.1 "my_table",
   c4_suffix_and_idempotence.2.2.1 "my_table",
   c4_suffix_and_idempotence.2.2.2 "my_table"⟩
